import Mathlib

/-!
# RecipeWaiter (CyberChef): a shallow embedding of `src/js/views/html/RecipeWaiter.js`

The waiter keeps no recipe of its own: every handler reads and writes the live
document.  The embedding therefore models the part of the document the waiter
touches, the subtree rooted at the `#rec-list` element, as a tree of nodes.

* A node reference (an `Element` object in the source) is a `Path`: the list of
  child indices leading from `#rec-list` to the node.  The empty path is
  `#rec-list` itself.  Ancestors of `#rec-list` are outside the model.
* DOM calls (`querySelectorAll`, `getAttribute`, `classList.add`, `textContent`,
  `previousSibling`, `children[0]`, ...) become functions over the tree and a path.
* A handler becomes a function from the waiter state to the waiter state.  An
  uncaught `TypeError` is modelled by `none` (for `getConfig`, which writes
  nothing) or by `Completion.threw` (for handlers).
* What the browser or an absent collaborator decides (the hit test of a touch
  release, the HTML parser behind `innerHTML`, the operation catalog and
  `HTMLOperation`) enters as an argument of the handler.
* Strings are sequences of characters; `slice(0, -1)` drops the last one.  (In
  JavaScript the unit is a UTF-16 code unit; the two agree unless the string ends in
  a character outside the basic plane, and every label the waiter writes ends in a
  space.)
-/

namespace RecipeWaiter

/-! ## The document model -/

/-- The own data of an element: tag name (in lower case), class list, attributes other than `class`,
and the `checked` and `value` properties of a form control. -/
structure Element where
  localName : String
  classList : List String
  attributes : List (String × String)
  checked : Bool
  value : String
deriving DecidableEq, Repr

/-- A DOM node: a text node or an element with its child nodes in document order. -/
inductive Node where
  | text (data : String)
  | element (e : Element) (childNodes : List Node)
deriving Repr

/-- A node reference: child indices from `#rec-list` down to the node. -/
abbrev Path := List Nat

/-- The `childNodes` of a node (a text node has none). -/
def Node.childNodes : Node → List Node
  | .text _ => []
  | .element _ cs => cs

/-- Whether the node is an element. -/
def Node.isElement : Node → Bool
  | .text _ => false
  | .element _ _ => true

/-- Dereferences a path below `root`. -/
def getNode : Node → Path → Option Node
  | n, [] => some n
  | n, k :: p =>
    match n.childNodes[k]? with
    | some c => getNode c p
    | none => none

/-- Applies `f` to the `k`-th element of a list of children. -/
def modifyChild (f : Node → Node) : Nat → List Node → List Node
  | _, [] => []
  | 0, c :: cs => f c :: cs
  | k + 1, c :: cs => c :: modifyChild f k cs

/-- Applies `f` to the node at a path, leaving every other node as it is. -/
def modifyAt (f : Node → Node) : Path → Node → Node
  | [], n => f n
  | _ :: _, .text d => .text d
  | k :: p, .element e cs => .element e (modifyChild (modifyAt f p) k cs)

mutual
/-- The `textContent` of a node: the text of all its text descendants, concatenated. -/
def textContent : Node → String
  | .text d => d
  | .element _ cs => textContentList cs
/-- The concatenated `textContent` of a list of sibling nodes. -/
def textContentList : List Node → String
  | [] => ""
  | c :: cs => textContent c ++ textContentList cs
end

mutual
/-- Paths, relative to the node and in document order, of its proper descendants
that match `sel`. -/
def select (sel : Node → Bool) : Node → List Path
  | .text _ => []
  | .element _ cs => selectList sel 0 cs
/-- The matches among a list of siblings, the first of which has child index `k`,
and among their descendants. -/
def selectList (sel : Node → Bool) (k : Nat) : List Node → List Path
  | [] => []
  | c :: cs =>
    (if sel c then [[k]] else []) ++ (select sel c).map (k :: ·) ++ selectList sel (k + 1) cs
end

/-- The value of `base.querySelectorAll(sel)`. -/
def querySelectorAll (root : Node) (base : Path) (sel : Node → Bool) : List Path :=
  match getNode root base with
  | some n => (select sel n).map (base ++ ·)
  | none => []

/-- The value of `base.querySelector(sel)`: the first match, `none` for `null`. -/
def querySelector (root : Node) (base : Path) (sel : Node → Bool) : Option Path :=
  (querySelectorAll root base sel).head?

/-- The class selector `.c`. -/
def hasClass (c : String) : Node → Bool
  | .text _ => false
  | .element e _ => decide (c ∈ e.classList)

/-- The selector `li.operation` (below `#rec-list`). -/
def liOperation : Node → Bool
  | .text _ => false
  | .element e _ => decide (e.localName = "li") && decide ("operation" ∈ e.classList)

/-- Looks an attribute up in an attribute list. -/
def getAttr (name : String) : List (String × String) → Option String
  | [] => none
  | (n, v) :: rest => if n = name then some v else getAttr name rest

/-- Sets an attribute in an attribute list. -/
def setAttr (name value : String) : List (String × String) → List (String × String)
  | [] => [(name, value)]
  | (n, v) :: rest => if n = name then (n, value) :: rest else (n, v) :: setAttr name value rest

/-- The value of `node.getAttribute(name)`, `none` for `null`. -/
def getAttribute (name : String) : Node → Option String
  | .text _ => none
  | .element e _ => getAttr name e.attributes

/-- Rewrites the class list and the attributes of an element; a text node is left alone. -/
def Node.update (g : List String → List String)
    (h : List (String × String) → List (String × String)) : Node → Node
  | .text d => .text d
  | .element e cs => .element { e with classList := g e.classList, attributes := h e.attributes } cs

/-- The token list after `classList.add(c)`. -/
def tokenAdd (c : String) (cl : List String) : List String :=
  if c ∈ cl then cl else cl ++ [c]

/-- The token list after `classList.remove(c)`. -/
def tokenRemove (c : String) (cl : List String) : List String :=
  cl.filter (fun x => decide (x ≠ c))

/-- The effect of `node.setAttribute(name, value)`. -/
def setAttribute (name value : String) : Node → Node :=
  Node.update id (setAttr name value)

/-- The effect of `node.classList.add(c)`. -/
def classListAdd (c : String) : Node → Node :=
  Node.update (tokenAdd c) id

/-- The effect of `node.classList.remove(c)`. -/
def classListRemove (c : String) : Node → Node :=
  Node.update (tokenRemove c) id

/-- Replaces the children of an element (the effect of assigning `innerHTML` once the
markup has been parsed into `children`); a text node is left alone. -/
def setChildNodes (children : List Node) : Node → Node
  | .text d => .text d
  | .element e _ => .element e children

/-- The `checked` property of a node. -/
def Node.checked : Node → Bool
  | .text _ => false
  | .element e _ => e.checked

/-- The `value` property of a node. -/
def Node.value : Node → String
  | .text _ => ""
  | .element e _ => e.value

/-- Reads `obs` off the node at `p`.  Queries only return paths of existing nodes
(`select_valid`); for a path that names no node the read gives `default`. -/
def readAt {α : Type} (obs : Node → α) (default : α) (root : Node) (p : Path) : α :=
  match getNode root p with
  | some n => obs n
  | none => default

/-- The value of `getAttribute(name)` on the node at `p`. -/
def getAttributeAt (root : Node) (p : Path) (name : String) : Option String :=
  readAt (getAttribute name) none root p

/-- The value of `classList.contains(c)` on the node at `p`. -/
def classContainsAt (root : Node) (p : Path) (c : String) : Bool :=
  readAt (hasClass c) false root p

/-- The `checked` property of the node at `p`. -/
def checkedAt (root : Node) (p : Path) : Bool :=
  readAt Node.checked false root p

/-- The `value` property of the node at `p`. -/
def valueAt (root : Node) (p : Path) : String :=
  readAt Node.value "" root p

/-- The `textContent` of the node at `p`. -/
def textContentAt (root : Node) (p : Path) : String :=
  readAt textContent "" root p

/-- The `parentNode` of the node at `p`; `none` when the parent lies above `#rec-list`. -/
def parentNode : Path → Option Path
  | [] => none
  | k :: p => some (List.dropLast (k :: p))

/-- The `previousSibling` of the node at `p`, `none` for `null`: the node with the
preceding child index under the same parent. -/
def previousSibling (p : Path) : Option Path :=
  match p.getLast? with
  | some (k + 1) => some (p.dropLast ++ [k])
  | _ => none

/-- The index of the first element among a list of child nodes. -/
def firstElementIndex : List Node → Option Nat
  | [] => none
  | c :: cs => if c.isElement then some 0 else (firstElementIndex cs).map (· + 1)

/-- The index of the first element child of a node; a text node has no `children`. -/
def Node.firstElementChildIndex : Node → Option Nat
  | .text _ => none
  | .element _ cs => firstElementIndex cs

/-- The value of `children[0]` on the node at `p`: its first element child.  `none`
when the node is a text node (it has no `children`) or has no element child. -/
def firstElementChild (root : Node) (p : Path) : Option Path :=
  (readAt Node.firstElementChildIndex none root p).map (fun k => p ++ [k])

/-- The value of `s.slice(0, -1)`: the string without its last character. -/
def sliceDropLast (s : String) : String :=
  ⟨s.data.dropLast⟩

/-- Runs `f` over a list in order, as a `for` loop that fills a result array does;
`none` as soon as one step throws. -/
def traverse {α β : Type} (f : α → Option β) : List α → Option (List β)
  | [] => some []
  | a :: as =>
    match f a with
    | none => none
    | some b =>
      match traverse f as with
      | none => none
      | some bs => some (b :: bs)

/-! ## The recipe configuration (`getConfig`) -/

/-- One argument value of a recipe configuration: a boolean, a string, or the
`option`/`string` pair of a toggle-string argument. -/
inductive ArgValue where
  | bool (b : Bool)
  | str (s : String)
  | toggle (option : String) (string : String)
deriving DecidableEq, Repr

/-- One record of a recipe configuration.  `disabled` and `breakpoint` are optional
fields: `none` when the field is absent from the object. -/
structure RecipeItem where
  op : String
  args : List ArgValue
  disabled : Option Bool
  breakpoint : Option Bool
deriving DecidableEq, Repr

/-- The operations of the recipe: `document.querySelectorAll("#rec-list li.operation")`. -/
def operations (root : Node) : List Path :=
  querySelectorAll root [] liOperation

/-- The body of the inner loop of `getConfig`: the value stored for one `.arg` element. -/
def ingredientValue (root : Node) (ing : Path) : Option ArgValue :=
  if getAttributeAt root ing "type" = some "checkbox" then
    some (.bool (checkedAt root ing))
  else if classContainsAt root ing "toggle-string" then
    match previousSibling ing with
    | none => none
    | some sib =>
      match firstElementChild root sib with
      | none => none
      | some button =>
        some (.toggle (sliceDropLast (textContentAt root button)) (valueAt root ing))
  else
    some (.str (valueAt root ing))

/-- The body of the outer loop of `getConfig`: the record built for one operation. -/
def configItem (root : Node) (operation : Path) : Option RecipeItem :=
  let disabled := querySelector root operation (hasClass "disable-icon")
  let bp := querySelector root operation (hasClass "breakpoint")
  let ingList := querySelectorAll root operation (hasClass "arg")
  match traverse (ingredientValue root) ingList with
  | none => none
  | some ingredients =>
    match querySelector root operation (hasClass "arg-title") with
    | none => none
    | some title =>
      let item : RecipeItem :=
        { op := textContentAt root title, args := ingredients, disabled := none, breakpoint := none }
      let item : RecipeItem :=
        match disabled with
        | some d =>
          if getAttributeAt root d "disabled" = some "true" then { item with disabled := some true }
          else item
        | none => item
      let item : RecipeItem :=
        match bp with
        | some b =>
          if getAttributeAt root b "break" = some "true" then { item with breakpoint := some true }
          else item
        | none => item
      some item

/-- Generates the configuration of the current recipe; `none` when a `TypeError` is thrown. -/
def getConfig (root : Node) : Option (List RecipeItem) :=
  traverse (configItem root) (operations root)

/-! ## The waiter and its handlers -/

/-- The events of the manager that the waiter dispatches. -/
inductive Event where
  | operationadd
  | operationremove
  | statechange
deriving DecidableEq, Repr

/-- Calls the waiter makes on collaborators that are not part of the recipe list. -/
inductive Call where
  | setAutoBake (value : Bool)
  | alert (message : String)
deriving DecidableEq, Repr

/-- The state the waiter reads and writes: the `#rec-list` subtree, its own
`removeIntent` flag, `app.progress`, `app.autoBake_`, and the trace of the events
dispatched and collaborator calls made so far (oldest first). -/
structure Waiter where
  recList : Node
  removeIntent : Bool
  progress : Nat
  autoBake : Bool
  dispatched : List Event
  calls : List Call

/-- How a handler ends: it returns, or an uncaught exception leaves it.  Either way
the state reached is kept. -/
inductive Completion (σ : Type) where
  | returned (state : σ)
  | threw (state : σ)

/-- The state at the end of a handler. -/
def Completion.state {σ : Type} : Completion σ → σ
  | .returned s => s
  | .threw s => s

/-- The constructor: `removeIntent` starts out false. -/
def construct (recList : Node) (progress : Nat) (autoBake : Bool) : Waiter :=
  { recList := recList, removeIntent := false, progress := progress, autoBake := autoBake,
    dispatched := [], calls := [] }

/-- The effect of `target.dispatchEvent(event)`. -/
def dispatchEvent (s : Waiter) (event : Event) : Waiter :=
  { s with dispatched := s.dispatched ++ [event] }

/-- The effect of `node.remove()` on the node at `p`: it leaves the child list of its
parent.  (Removing `#rec-list` itself is outside the model.) -/
def removeNode (p : Path) (root : Node) : Node :=
  match p.getLast? with
  | none => root
  | some k => modifyAt (fun n => setChildNodes (n.childNodes.eraseIdx k) n) p.dropLast root

/-- The `dragover` listener on `#rec-list`. -/
def recListDragover (s : Waiter) : Waiter :=
  { s with removeIntent := false }

/-- The `dragleave` listener on `#rec-list`. -/
def recListDragleave (s : Waiter) : Waiter :=
  { s with removeIntent := true, progress := 0 }

/-- The `touchend` listener on `#rec-list`.  `target` is the result of
`document.elementFromPoint` at the release point: `some p` for the node at `p` inside
`#rec-list` (or `#rec-list` itself), `none` for `null` or a node outside it. -/
def recListTouchend (s : Waiter) (target : Option Path) : Waiter :=
  { s with removeIntent := !target.isSome }

/-- The `onEnd` handler of the recipe list; `item` is the child index of the dragged
entry in `#rec-list` when the gesture ends. -/
def recListOnEnd (s : Waiter) (item : Nat) : Waiter :=
  if s.removeIntent then
    dispatchEvent { s with recList := removeNode [item] s.recList } .operationremove
  else
    s

/-- An event delivered to the recipe zone during a drag gesture. -/
inductive ZoneEvent where
  | dragover
  | dragleave
  | touchend (target : Option Path)
deriving DecidableEq, Repr

/-- Runs the listener for one zone event. -/
def deliver (s : Waiter) : ZoneEvent → Waiter
  | .dragover => recListDragover s
  | .dragleave => recListDragleave s
  | .touchend target => recListTouchend s target

/-- Runs the listeners for a sequence of zone events, in order. -/
def deliverAll (s : Waiter) (events : List ZoneEvent) : Waiter :=
  events.foldl deliver s

/-- What the absent `HTMLOperation` and `app.operations` give for an operation name:
the nodes `op.toFullHtml()` parses to, and the `flowControl` and `manualBake` flags. -/
structure OperationInfo where
  fullHtml : List Node
  flowControl : Bool
  manualBake : Bool

/-- The operation catalog `app.operations`, `none` for a name it does not hold. -/
abbrev Catalog := String → Option OperationInfo

/-- Converts the operation stub at `el` into a full recipe element.  For a name the
catalog does not hold the construction of the operation throws before anything is
written. -/
def buildRecipeOperation (catalog : Catalog) (s : Waiter) (el : Path) : Completion Waiter :=
  let opName := textContentAt s.recList el
  match catalog opName with
  | none => .threw s
  | some op =>
    let root := modifyAt (setChildNodes op.fullHtml) el s.recList
    let root := if op.flowControl then modifyAt (classListAdd "flow-control-op") el root else root
    let s : Waiter := { s with recList := root }
    if op.manualBake && s.autoBake then
      .returned { s with calls := s.calls ++ [.setAutoBake false,
        .alert "Auto-Bake is disabled by default when using this operation."] }
    else
      .returned s

/-- The handler for the end of a drag that started in the catalog.  `item` is the
child index of the dragged item in `#rec-list` (its `parentNode.id` is `"rec-list"`),
or `none` when its parent is another element.  The popover calls are not modelled. -/
def opSortEnd (catalog : Catalog) (s : Waiter) (item : Option Nat) : Completion Waiter :=
  if s.removeIntent then
    match item with
    | some k => .returned { s with recList := removeNode [k] s.recList }
    | none => .returned s
  else
    match item with
    | none => .returned s
    | some k =>
      match buildRecipeOperation catalog s [k] with
      | .threw s' => .threw s'
      | .returned s' => .returned (dispatchEvent s' .operationadd)

/-- The handler for ingredient change events. -/
def ingChange (s : Waiter) : Waiter :=
  dispatchEvent s .statechange

/-- The handler for a click on the disable icon at `icon`. -/
def disableClick (s : Waiter) (icon : Path) : Waiter :=
  let grandparent := (parentNode icon).bind parentNode
  let root :=
    if getAttributeAt s.recList icon "disabled" = some "false" then
      let root := modifyAt (setAttribute "disabled" "true") icon s.recList
      let root := modifyAt (classListAdd "disable-icon-selected") icon root
      match grandparent with
      | some g => modifyAt (classListAdd "disabled") g root
      | none => root
    else
      let root := modifyAt (setAttribute "disabled" "false") icon s.recList
      let root := modifyAt (classListRemove "disable-icon-selected") icon root
      match grandparent with
      | some g => modifyAt (classListRemove "disabled") g root
      | none => root
  dispatchEvent { s with recList := root, progress := 0 } .statechange

/-- The handler for a click on the breakpoint control at `bp`. -/
def breakpointClick (s : Waiter) (bp : Path) : Waiter :=
  let root :=
    if getAttributeAt s.recList bp "break" = some "false" then
      modifyAt (classListAdd "breakpoint-selected") bp
        (modifyAt (setAttribute "break" "true") bp s.recList)
    else
      modifyAt (classListRemove "breakpoint-selected") bp
        (modifyAt (setAttribute "break" "false") bp s.recList)
  dispatchEvent { s with recList := root } .statechange

/-- The loop of `updateBreakpointIndicator` from index `i` on. -/
def indicatorLoop (position : Int) : Nat → List Path → Node → Node
  | _, [], root => root
  | i, operation :: rest, root =>
    let root :=
      if (i : Int) = position then modifyAt (classListAdd "break") operation root
      else modifyAt (classListRemove "break") operation root
    indicatorLoop position (i + 1) rest root

/-- Moves or removes the breakpoint indicator.  `position` is the number passed in; a
value that is no integer equals no index, as an integer out of range does. -/
def updateBreakpointIndicator (s : Waiter) (position : Int) : Waiter :=
  { s with recList := indicatorLoop position 0 (operations s.recList) s.recList }

/-- The loop of `clearRecipe`: while there is a first child, remove it. -/
def removeChildrenLoop : List Node → List Node
  | [] => []
  | _ :: rest => removeChildrenLoop rest

/-- Removes all operations from the recipe. -/
def clearRecipe (s : Waiter) : Waiter :=
  dispatchEvent { s with recList := setChildNodes (removeChildrenLoop s.recList.childNodes) s.recList }
    .operationremove

/-- The handler for a click on the option at `el` in the dropdown of a toggle-string
argument.  `parseHTML` is the HTML parser of the browser, which turns the markup
assigned to `innerHTML` into nodes.  The button is the previous sibling of the
grandparent of `el`; the assignment throws when that sibling is `null`, and writes
nothing to the document when it is a text node.  The listener is registered for
options below an `.input-group` below `#rec-list`; for a target whose grandparent is
`#rec-list` or above it the button is outside the model and the recipe list is kept. -/
def dropdownToggleClick (parseHTML : String → List Node) (s : Waiter) (el : Path) :
    Completion Waiter :=
  match (parentNode el).bind parentNode with
  | some (k :: menu) =>
    match previousSibling (k :: menu) with
    | none => .threw s
    | some button =>
      let markup := textContentAt s.recList el ++ " <span class='caret'></span>"
      .returned (ingChange
        { s with recList := modifyAt (setChildNodes (parseHTML markup)) button s.recList })
  | _ => .returned (ingChange s)

/-- The handler for `operationadd` events. -/
def opAdd (s : Waiter) : Waiter :=
  dispatchEvent s .statechange

/-- The handler for `operationremove` events. -/
def opRemove (s : Waiter) : Waiter :=
  dispatchEvent s .statechange


/-! ## Vocabulary for the frame lemmas -/

/-- An observation of a node that does not look at its children. -/
def OwnData {α : Type} (obs : Node → α) : Prop :=
  ∀ e cs cs', obs (.element e cs) = obs (.element e cs')

/-- A rewrite of a node that leaves its child list alone. -/
def KeepsChildren (f : Node → Node) : Prop :=
  ∀ m, (f m).childNodes = m.childNodes

/-- A rewrite of a class list that neither adds nor removes the token `c`. -/
def KeepsToken (c : String) (g : List String → List String) : Prop :=
  ∀ cl, c ∈ g cl ↔ c ∈ cl

/-- A rewrite of an attribute list that leaves the attribute `name` as it is. -/
def KeepsAttr (name : String) (h : List (String × String) → List (String × String)) : Prop :=
  ∀ as, getAttr name (h as) = getAttr name as

/-- A rewrite of a class list that keeps every class `getConfig` selects or tests. -/
def KeepsConfigTokens (g : List String → List String) : Prop :=
  KeepsToken "operation" g ∧ KeepsToken "disable-icon" g ∧ KeepsToken "breakpoint" g ∧
    KeepsToken "arg" g ∧ KeepsToken "arg-title" g ∧ KeepsToken "toggle-string" g

/-! ## The recipe as `getConfig` reads it -/

/-- The argument elements of an entry, in document order. -/
def entryArguments (root : Node) (operation : Path) : List Path :=
  querySelectorAll root operation (hasClass "arg")

/-- The name of an entry: the text of its title element, `none` when it has none. -/
def entryName (root : Node) (operation : Path) : Option String :=
  (querySelector root operation (hasClass "arg-title")).map (textContentAt root)

/-- Whether the entry is disabled: its disable icon carries `disabled="true"`
(the state `disableClick` toggles). -/
def entryDisabled (root : Node) (operation : Path) : Bool :=
  match querySelector root operation (hasClass "disable-icon") with
  | some d => decide (getAttributeAt root d "disabled" = some "true")
  | none => false

/-- Whether the breakpoint of the entry is set: its breakpoint control carries
`break="true"` (the state `breakpointClick` toggles). -/
def entryBreakpoint (root : Node) (operation : Path) : Bool :=
  match querySelector root operation (hasClass "breakpoint") with
  | some b => decide (getAttributeAt root b "break" = some "true")
  | none => false

/-- An optional field that is present, with the value `true`, exactly when `b` holds. -/
def flagField (b : Bool) : Option Bool :=
  if b then some true else none

/-! ## Drag gestures -/

/-- Whether a zone event sets delete intent: a `dragleave`, or a `touchend` whose
release point is outside the recipe zone. -/
def ZoneEvent.leaves : ZoneEvent → Bool
  | .dragover => false
  | .dragleave => true
  | .touchend target => !target.isSome

/-- Whether the last event of a gesture set delete intent; false for a gesture that
delivered no event. -/
def lastEventLeaves (events : List ZoneEvent) : Bool :=
  match events.getLast? with
  | some e => e.leaves
  | none => false

/-- The delete intent at the end of a gesture: set by its last event, or left as it
was before the gesture when the gesture delivered no event. -/
def intentAfter (before : Bool) (events : List ZoneEvent) : Bool :=
  match events.getLast? with
  | some e => e.leaves
  | none => before

/-! ## Example documents -/

/-- An element without attributes of a form control. -/
def mkElement (tag : String) (classes : List String) (attrs : List (String × String))
    (children : List Node) : Node :=
  .element ⟨tag, classes, attrs, false, ""⟩ children

/-- The icons every rendered operation ends with. -/
def exampleIcons : Node :=
  mkElement "div" ["recip-icons"] []
    [mkElement "div" ["breakpoint"] [("title", "Set breakpoint"), ("break", "false")] [],
     mkElement "div" ["disable-icon", "recip-icon"]
       [("title", "Disable operation"), ("disabled", "false")] []]

/-- A rendered `Base64` operation with its alphabet argument. -/
def exampleBase64 : Node :=
  mkElement "li" ["operation"] []
    [mkElement "div" ["arg-title"] [] [.text "Base64"],
     mkElement "div" ["arg-group"] []
       [mkElement "label" ["arg-label"] [] [.text "Alphabet"],
        .element ⟨"input", ["arg", "arg-input"], [("type", "text")], false, "A-Za-z0-9+/="⟩ []],
     exampleIcons]

/-- A rendered `MD5` operation (no arguments). -/
def exampleMD5 : Node :=
  mkElement "li" ["operation"] [] [mkElement "div" ["arg-title"] [] [.text "MD5"], exampleIcons]

/-- A rendered `XOR` operation: a toggle-string key and a checkbox. -/
def exampleXOR : Node :=
  mkElement "li" ["operation"] []
    [mkElement "div" ["arg-title"] [] [.text "XOR"],
     mkElement "div" ["arg-group"] []
       [mkElement "label" ["arg-label"] [] [.text "Key"],
        mkElement "div" ["input-group"] []
          [mkElement "div" ["input-group-btn"] []
             [mkElement "button" ["btn", "btn-default", "dropdown-toggle"] [("type", "button")]
                [.text "Hex ", mkElement "span" ["caret"] [] []],
              mkElement "ul" ["dropdown-menu"] []
                [mkElement "li" [] [] [mkElement "a" [] [("href", "#")] [.text "Hex"]],
                 mkElement "li" [] [] [mkElement "a" [] [("href", "#")] [.text "Base64"]]]],
           .element ⟨"input", ["arg", "arg-input", "toggle-string"], [("type", "text")],
             false, "ff"⟩ []]],
     mkElement "div" ["arg-group"] []
       [mkElement "label" ["arg-label"] [] [.text "Null preserving"],
        .element ⟨"input", ["arg"], [("type", "checkbox")], true, "on"⟩ []],
     exampleIcons]

/-- The recipe `Base64`, `MD5`. -/
def exampleRecipe : Node :=
  mkElement "ul" [] [("id", "rec-list")] [exampleBase64, exampleMD5]

/-- The recipe `XOR`, `MD5`. -/
def exampleXORRecipe : Node :=
  mkElement "ul" [] [("id", "rec-list")] [exampleXOR, exampleMD5]

/-- A waiter over the recipe `Base64`, `MD5`, as constructed. -/
def exampleWaiter : Waiter :=
  construct exampleRecipe 0 true

/-- The catalog stub of `MD5` as Sortable drops it into the recipe list. -/
def exampleStub : Node :=
  mkElement "li" ["operation"] [] [.text "MD5"]

/-- A catalog that holds `MD5` only. -/
def exampleCatalog : Catalog := fun name =>
  if name = "MD5" then
    some ⟨[mkElement "div" ["arg-title"] [] [.text "MD5"], exampleIcons], false, false⟩
  else none

/-- A waiter whose recipe list holds `Base64` and a freshly dropped `MD5` stub. -/
def exampleDropWaiter : Waiter :=
  construct (mkElement "ul" [] [("id", "rec-list")] [exampleBase64, exampleStub]) 0 true

/-- The recipe `MD5`, `Base64`: the example recipe after its first entry was dragged
below the second. -/
def exampleReorderedWaiter : Waiter :=
  construct (mkElement "ul" [] [("id", "rec-list")] [exampleMD5, exampleBase64]) 0 true

/-- The full recipe element `buildRecipeOperation` makes of a stub: the children are
replaced by the rendered operation, and a flow control operation gets its class. -/
def fullOperation (op : OperationInfo) (stub : Node) : Node :=
  if op.flowControl then classListAdd "flow-control-op" (setChildNodes op.fullHtml stub)
  else setChildNodes op.fullHtml stub

/-- The kinds of argument element `getConfig` tells apart. -/
inductive ArgKind where
  | checkbox
  | toggleString
  | other
deriving DecidableEq, Repr

/-- The kind of the argument element at `ing`: a checkbox when its `type` attribute
says so, else a toggle-string when it carries that class, else any other argument. -/
def argKind (root : Node) (ing : Path) : ArgKind :=
  if getAttributeAt root ing "type" = some "checkbox" then .checkbox
  else if classContainsAt root ing "toggle-string" then .toggleString
  else .other

/-- The button that shows the selected option of the toggle-string argument at `ing`:
the first element child of the previous sibling of the argument. -/
def toggleButton (root : Node) (ing : Path) : Option Path :=
  (previousSibling ing).bind (firstElementChild root)

/-- The node at `p` lies strictly below the node at `q`. -/
def StrictlyBelow (p q : Path) : Prop :=
  ∃ r, r ≠ [] ∧ p = q ++ r

/-- A parser that knows the label markup of the option `Base64`. -/
def exampleParser (markup : String) : List Node :=
  if markup = "Base64 <span class='caret'></span>" then
    [.text "Base64 ", mkElement "span" ["caret"] [] []]
  else []

/-- A waiter over the recipe `XOR`, `MD5`. -/
def exampleXORWaiter : Waiter :=
  construct exampleXORRecipe 0 true

/-- The setting of a relabelling: `b` is the element at `button`, and neither its
descendants nor the nodes `new` that replace its children hold an operation, an
argument or a title; `new` holds an element. -/
structure Relabel (root : Node) (button : Path) (b : Node) (new : List Node) : Prop where
  node : getNode root button = some b
  isElement : b.isElement = true
  oldOperation : select liOperation b = []
  oldArg : select (hasClass "arg") b = []
  oldTitle : select (hasClass "arg-title") b = []
  newOperation : selectList liOperation 0 new = []
  newArg : selectList (hasClass "arg") 0 new = []
  newTitle : selectList (hasClass "arg-title") 0 new = []
  newElement : (firstElementIndex new).isSome = true

/-! ## Lists of children and paths -/

theorem getElem?_modifyChild (f : Node → Node) (k x : Nat) (cs : List Node) :
    (modifyChild f k cs)[x]? = if x = k then cs[x]?.map f else cs[x]? := by
  induction cs generalizing k x with
  | nil => simp [modifyChild]
  | cons c cs ih =>
    cases k with
    | zero =>
      cases x with
      | zero => simp [modifyChild]
      | succ x => simp [modifyChild]
    | succ k =>
      cases x with
      | zero => simp [modifyChild]
      | succ x => simp [modifyChild, ih]

theorem getNode_text_cons (d : String) (k : Nat) (p : Path) :
    getNode (.text d) (k :: p) = none := by
  simp [getNode, Node.childNodes]

theorem getNode_append (n : Node) (p r : Path) :
    getNode n (p ++ r) = (getNode n p).bind (fun m => getNode m r) := by
  induction p generalizing n with
  | nil => simp [getNode]
  | cons k p ih =>
    simp only [List.cons_append, getNode]
    cases n.childNodes[k]? with
    | none => simp
    | some c => simpa using ih c

/-- The node found at `p` after `f` has been applied at `q`, provided `f` keeps what
lies strictly below `q` whenever `p` lies there. -/
theorem getNode_modifyAt (f : Node → Node) (q : Path) (n : Node) (p : Path)
    (hf : ∀ r, r ≠ [] → p = q ++ r → ∀ m, getNode (f m) r = getNode m r) :
    getNode (modifyAt f q n) p =
      (getNode n p).map
        (fun m => if q.take p.length = p then modifyAt f (q.drop p.length) m else m) := by
  induction p generalizing q n with
  | nil => simp [getNode]
  | cons x p ih =>
    cases q with
    | nil =>
      have h := hf (x :: p) (by simp) (by simp) n
      simp [modifyAt, h]
    | cons y q =>
      cases n with
      | text d => simp [modifyAt, getNode_text_cons]
      | element e cs =>
        simp only [modifyAt, getNode, Node.childNodes, getElem?_modifyChild]
        by_cases hxy : x = y
        · subst hxy
          have hf' : ∀ r, r ≠ [] → p = q ++ r → ∀ m, getNode (f m) r = getNode m r := by
            intro r hr hp m
            exact hf r hr (by simp [hp]) m
          cases hc : cs[x]? with
          | none => simp
          | some c => simp [ih q c hf']
        · have hne : ¬ (y = x) := fun h => hxy h.symm
          cases hc : cs[x]? with
          | none => simp [hxy]
          | some c => simp [hxy, hne]

/-! ## Reads after a rewrite at a path -/

theorem getNode_cons_of_childNodes (m m' : Node) (h : m'.childNodes = m.childNodes)
    (k : Nat) (r : Path) : getNode m' (k :: r) = getNode m (k :: r) := by
  simp [getNode, h]

theorem getNode_keeps (f : Node → Node) (hf : KeepsChildren f) (r : Path) (hr : r ≠ [])
    (m : Node) : getNode (f m) r = getNode m r := by
  cases r with
  | nil => exact absurd rfl hr
  | cons k r => exact getNode_cons_of_childNodes m (f m) (hf m) k r

theorem own_modifyAt_cons {α : Type} (obs : Node → α) (hown : OwnData obs) (f : Node → Node)
    (k : Nat) (r : Path) (m : Node) : obs (modifyAt f (k :: r) m) = obs m := by
  cases m with
  | text d => simp [modifyAt]
  | element e cs => simpa [modifyAt] using hown e _ cs

theorem eq_of_take_of_drop_nil (p q : Path) (h1 : q.take p.length = p)
    (h2 : q.drop p.length = []) : p = q := by
  have := List.take_append_drop p.length q
  rw [h1, h2] at this
  simpa using this

/-- An observation of own data is unchanged at `p` by a rewrite at `q`, unless `p = q`
and the rewrite changes the observation. -/
theorem readAt_modifyAt {α : Type} (obs : Node → α) (d : α) (hown : OwnData obs)
    (f : Node → Node) (q : Path) (n : Node) (p : Path)
    (hf : ∀ r, r ≠ [] → p = q ++ r → ∀ m, getNode (f m) r = getNode m r)
    (h : p = q → ∀ m, obs (f m) = obs m) :
    readAt obs d (modifyAt f q n) p = readAt obs d n p := by
  unfold readAt
  rw [getNode_modifyAt f q n p hf]
  cases hn : getNode n p with
  | none => simp
  | some m =>
    simp only [Option.map_some']
    by_cases hc : q.take p.length = p
    · simp only [hc, if_true]
      cases hd : q.drop p.length with
      | nil =>
        have hpq := eq_of_take_of_drop_nil p q hc hd
        simpa [modifyAt] using h hpq m
      | cons k r => exact own_modifyAt_cons obs hown f k r m
    · simp [hc]

/-- The read at the rewritten node itself. -/
theorem readAt_modifyAt_self {α : Type} (obs : Node → α) (d : α)
    (f : Node → Node) (q : Path) (n : Node) :
    readAt obs d (modifyAt f q n) q = readAt (fun m => obs (f m)) d n q := by
  unfold readAt
  rw [getNode_modifyAt f q n q (by
    intro r hr hq
    exact absurd (by simpa using hq) hr)]
  cases hn : getNode n q with
  | none => simp
  | some m => simp [modifyAt]

theorem own_modifyAt {α : Type} (obs : Node → α) (hown : OwnData obs) (f : Node → Node)
    (hf : ∀ m, obs (f m) = obs m) (r : Path) (m : Node) : obs (modifyAt f r m) = obs m := by
  cases r with
  | nil => simpa [modifyAt] using hf m
  | cons k r => exact own_modifyAt_cons obs hown f k r m

/-- A read at `p` is unchanged by a rewrite at `q` when the rewrite, seen from the node
at `p`, does not change the observation. -/
theorem readAt_modifyAt_of {α : Type} (obs : Node → α) (d : α)
    (f : Node → Node) (q : Path) (n : Node) (p : Path)
    (hf : ∀ r, r ≠ [] → p = q ++ r → ∀ m, getNode (f m) r = getNode m r)
    (h : ∀ m r, p ++ r = q → getNode n p = some m → obs (modifyAt f r m) = obs m) :
    readAt obs d (modifyAt f q n) p = readAt obs d n p := by
  unfold readAt
  rw [getNode_modifyAt f q n p hf]
  cases hn : getNode n p with
  | none => simp
  | some m =>
    simp only [Option.map_some']
    by_cases hc : q.take p.length = p
    · simp only [hc, if_true]
      apply h m _ _ hn
      have := List.take_append_drop p.length q
      rw [hc] at this
      exact this
    · simp [hc]

theorem textContentList_modifyChild (g : Node → Node) (k : Nat) (cs : List Node)
    (h : ∀ c, cs[k]? = some c → textContent (g c) = textContent c) :
    textContentList (modifyChild g k cs) = textContentList cs := by
  induction cs generalizing k with
  | nil => simp [modifyChild]
  | cons c cs ih =>
    cases k with
    | zero => simp [modifyChild, textContentList, h c (by simp)]
    | succ k =>
      simp only [modifyChild, textContentList]
      rw [ih k (fun c' hc' => h c' (by simpa using hc'))]

theorem textContent_modifyAt (f : Node → Node) (r : Path) (n : Node)
    (hnode : ∀ m, getNode n r = some m → textContent (f m) = textContent m) :
    textContent (modifyAt f r n) = textContent n := by
  induction r generalizing n with
  | nil => simpa [modifyAt] using hnode n (by simp [getNode])
  | cons k r ih =>
    cases n with
    | text d => simp [modifyAt]
    | element e cs =>
      simp only [modifyAt, textContent]
      apply textContentList_modifyChild
      intro c hc
      apply ih
      intro m hm
      apply hnode
      simp [getNode, Node.childNodes, hc, hm]

theorem select_eq_selectList (sel : Node → Bool) (n : Node) :
    select sel n = selectList sel 0 n.childNodes := by
  cases n with
  | text d => simp [select, selectList, Node.childNodes]
  | element e cs => simp [select, Node.childNodes]

theorem select_of_childNodes (sel : Node → Bool) (m m' : Node)
    (h : m'.childNodes = m.childNodes) : select sel m' = select sel m := by
  rw [select_eq_selectList, select_eq_selectList, h]

theorem selectList_modifyChild (sel : Node → Bool) (g : Node → Node) (k j : Nat)
    (cs : List Node)
    (h : ∀ c, cs[k]? = some c → select sel (g c) = select sel c ∧ sel (g c) = sel c) :
    selectList sel j (modifyChild g k cs) = selectList sel j cs := by
  induction cs generalizing k j with
  | nil => simp [modifyChild]
  | cons c cs ih =>
    cases k with
    | zero =>
      have hc := h c (by simp)
      simp [modifyChild, selectList, hc.1, hc.2]
    | succ k =>
      simp only [modifyChild, selectList]
      rw [ih k (j + 1) (fun c' hc' => h c' (by simpa using hc'))]

theorem select_modifyAt (sel : Node → Bool) (hown : OwnData sel) (f : Node → Node)
    (hsel : ∀ m, sel (f m) = sel m) (r : Path) (n : Node)
    (hnode : ∀ m, getNode n r = some m → select sel (f m) = select sel m) :
    select sel (modifyAt f r n) = select sel n := by
  induction r generalizing n with
  | nil => simpa [modifyAt] using hnode n (by simp [getNode])
  | cons k r ih =>
    cases n with
    | text d => simp [modifyAt]
    | element e cs =>
      simp only [modifyAt, select]
      apply selectList_modifyChild
      intro c hc
      refine ⟨?_, own_modifyAt sel hown f hsel r c⟩
      apply ih
      intro m hm
      apply hnode
      simp [getNode, Node.childNodes, hc, hm]

theorem firstElementIndex_modifyChild (g : Node → Node) (k : Nat) (cs : List Node)
    (h : ∀ c, (g c).isElement = c.isElement) :
    firstElementIndex (modifyChild g k cs) = firstElementIndex cs := by
  induction cs generalizing k with
  | nil => simp [modifyChild]
  | cons c cs ih =>
    cases k with
    | zero => simp [modifyChild, firstElementIndex, h c]
    | succ k => simp [modifyChild, firstElementIndex, ih k]

theorem ownData_isElement : OwnData Node.isElement := by
  intro e cs cs'
  rfl

theorem firstElementChildIndex_modifyAt_cons (f : Node → Node)
    (hf : ∀ m, (f m).isElement = m.isElement) (k : Nat) (r : Path) (n : Node) :
    (modifyAt f (k :: r) n).firstElementChildIndex = n.firstElementChildIndex := by
  cases n with
  | text d => simp [modifyAt]
  | element e cs =>
    simp only [modifyAt, Node.firstElementChildIndex]
    apply firstElementIndex_modifyChild
    intro c
    exact own_modifyAt Node.isElement ownData_isElement f hf r c

/-! ## Rewrites of class list and attributes -/

theorem keepsChildren_update (g : List String → List String)
    (h : List (String × String) → List (String × String)) : KeepsChildren (Node.update g h) := by
  intro m
  cases m <;> rfl

theorem isElement_update (g : List String → List String)
    (h : List (String × String) → List (String × String)) (m : Node) :
    (Node.update g h m).isElement = m.isElement := by
  cases m <;> rfl

theorem checked_update (g : List String → List String)
    (h : List (String × String) → List (String × String)) (m : Node) :
    (Node.update g h m).checked = m.checked := by
  cases m <;> rfl

theorem value_update (g : List String → List String)
    (h : List (String × String) → List (String × String)) (m : Node) :
    (Node.update g h m).value = m.value := by
  cases m <;> rfl

theorem textContent_update (g : List String → List String)
    (h : List (String × String) → List (String × String)) (m : Node) :
    textContent (Node.update g h m) = textContent m := by
  cases m <;> simp [Node.update, textContent]

theorem firstElementChildIndex_update (g : List String → List String)
    (h : List (String × String) → List (String × String)) (m : Node) :
    (Node.update g h m).firstElementChildIndex = m.firstElementChildIndex := by
  cases m <;> rfl

theorem hasClass_update (c : String) (g : List String → List String)
    (h : List (String × String) → List (String × String)) (hg : KeepsToken c g) (m : Node) :
    hasClass c (Node.update g h m) = hasClass c m := by
  cases m with
  | text d => rfl
  | element e cs =>
    simp only [Node.update, hasClass]
    exact decide_eq_decide.mpr (hg e.classList)

theorem liOperation_update (g : List String → List String)
    (h : List (String × String) → List (String × String)) (hg : KeepsToken "operation" g)
    (m : Node) : liOperation (Node.update g h m) = liOperation m := by
  cases m with
  | text d => rfl
  | element e cs =>
    simp only [Node.update, liOperation]
    rw [decide_eq_decide.mpr (hg e.classList)]

theorem getAttribute_update (name : String) (g : List String → List String)
    (h : List (String × String) → List (String × String)) (hh : KeepsAttr name h) (m : Node) :
    getAttribute name (Node.update g h m) = getAttribute name m := by
  cases m with
  | text d => rfl
  | element e cs => simpa [Node.update, getAttribute] using hh e.attributes

theorem ownData_hasClass (c : String) : OwnData (hasClass c) := by
  intro e cs cs'
  rfl

theorem ownData_liOperation : OwnData liOperation := by
  intro e cs cs'
  rfl

theorem ownData_getAttribute (name : String) : OwnData (getAttribute name) := by
  intro e cs cs'
  rfl

theorem ownData_checked : OwnData Node.checked := by
  intro e cs cs'
  rfl

theorem ownData_value : OwnData Node.value := by
  intro e cs cs'
  rfl

theorem keepsToken_id (c : String) : KeepsToken c id := by
  intro cl
  rfl

theorem keepsAttr_id (name : String) : KeepsAttr name id := by
  intro as
  rfl

theorem keepsToken_tokenAdd (c c' : String) (hne : c ≠ c') : KeepsToken c (tokenAdd c') := by
  intro cl
  unfold tokenAdd
  split
  · rfl
  · simp [hne]

theorem keepsToken_tokenRemove (c c' : String) (hne : c ≠ c') :
    KeepsToken c (tokenRemove c') := by
  intro cl
  simp [tokenRemove, hne]

theorem getAttr_setAttr (name name' value : String) (as : List (String × String)) :
    getAttr name (setAttr name' value as) =
      if name = name' then some value else getAttr name as := by
  induction as with
  | nil =>
    by_cases h : name = name'
    · simp [setAttr, getAttr, h]
    · have h' : ¬ name' = name := fun e => h e.symm
      simp [setAttr, getAttr, h, h']
  | cons a as ih =>
    obtain ⟨n, v⟩ := a
    by_cases hn : n = name'
    · by_cases h : name = name'
      · simp [setAttr, getAttr, hn, h]
      · have h' : ¬ name' = name := fun e => h e.symm
        simp [setAttr, getAttr, hn, h, h']
    · by_cases h : name = name'
      · subst h
        simp [setAttr, getAttr, hn, ih]
      · by_cases hnn : n = name
        · subst hnn
          simp [setAttr, getAttr, h]
        · simp [setAttr, getAttr, hn, hnn, ih, h]

theorem keepsAttr_setAttr (name name' value : String) (hne : name ≠ name') :
    KeepsAttr name (setAttr name' value) := by
  intro as
  rw [getAttr_setAttr]
  simp [hne]

/-! ## Queries and reads after a rewrite of class list and attributes -/

theorem update_hf (g : List String → List String)
    (h : List (String × String) → List (String × String)) (p q : Path) :
    ∀ r, r ≠ [] → p = q ++ r → ∀ m, getNode (Node.update g h m) r = getNode m r := by
  intro r hr _ m
  exact getNode_keeps _ (keepsChildren_update g h) r hr m

theorem querySelectorAll_eq_readAt (root : Node) (base : Path) (sel : Node → Bool) :
    querySelectorAll root base sel =
      readAt (fun n => (select sel n).map (fun x => base ++ x)) [] root base := by
  unfold querySelectorAll readAt
  cases getNode root base <;> rfl

theorem querySelectorAll_update (sel : Node → Bool) (hown : OwnData sel)
    (g : List String → List String) (h : List (String × String) → List (String × String))
    (hsel : ∀ m, sel (Node.update g h m) = sel m) (q : Path) (root : Node) (base : Path) :
    querySelectorAll (modifyAt (Node.update g h) q root) base sel =
      querySelectorAll root base sel := by
  rw [querySelectorAll_eq_readAt, querySelectorAll_eq_readAt]
  apply readAt_modifyAt_of _ _ _ _ _ _ (update_hf g h base q)
  intro m r _ _
  rw [select_modifyAt sel hown _ hsel r m]
  intro m' _
  exact select_of_childNodes sel m' _ (keepsChildren_update g h m')

theorem querySelector_update (sel : Node → Bool) (hown : OwnData sel)
    (g : List String → List String) (h : List (String × String) → List (String × String))
    (hsel : ∀ m, sel (Node.update g h m) = sel m) (q : Path) (root : Node) (base : Path) :
    querySelector (modifyAt (Node.update g h) q root) base sel = querySelector root base sel := by
  unfold querySelector
  rw [querySelectorAll_update sel hown g h hsel]

theorem classContainsAt_update (c : String) (g : List String → List String)
    (h : List (String × String) → List (String × String)) (hg : KeepsToken c g)
    (q : Path) (root : Node) (p : Path) :
    classContainsAt (modifyAt (Node.update g h) q root) p c = classContainsAt root p c :=
  readAt_modifyAt _ _ (ownData_hasClass c) _ q root p (update_hf g h p q)
    (fun _ m => hasClass_update c g h hg m)

theorem getAttributeAt_update (name : String) (g : List String → List String)
    (h : List (String × String) → List (String × String)) (hh : KeepsAttr name h)
    (q : Path) (root : Node) (p : Path) :
    getAttributeAt (modifyAt (Node.update g h) q root) p name = getAttributeAt root p name :=
  readAt_modifyAt _ _ (ownData_getAttribute name) _ q root p (update_hf g h p q)
    (fun _ m => getAttribute_update name g h hh m)

theorem getAttributeAt_update_ne (name : String) (g : List String → List String)
    (h : List (String × String) → List (String × String))
    (q : Path) (root : Node) (p : Path) (hpq : p ≠ q) :
    getAttributeAt (modifyAt (Node.update g h) q root) p name = getAttributeAt root p name :=
  readAt_modifyAt _ _ (ownData_getAttribute name) _ q root p (update_hf g h p q)
    (fun e => absurd e hpq)

theorem checkedAt_update (g : List String → List String)
    (h : List (String × String) → List (String × String)) (q : Path) (root : Node) (p : Path) :
    checkedAt (modifyAt (Node.update g h) q root) p = checkedAt root p :=
  readAt_modifyAt _ _ ownData_checked _ q root p (update_hf g h p q)
    (fun _ m => checked_update g h m)

theorem valueAt_update (g : List String → List String)
    (h : List (String × String) → List (String × String)) (q : Path) (root : Node) (p : Path) :
    valueAt (modifyAt (Node.update g h) q root) p = valueAt root p :=
  readAt_modifyAt _ _ ownData_value _ q root p (update_hf g h p q)
    (fun _ m => value_update g h m)

theorem textContentAt_update (g : List String → List String)
    (h : List (String × String) → List (String × String)) (q : Path) (root : Node) (p : Path) :
    textContentAt (modifyAt (Node.update g h) q root) p = textContentAt root p := by
  apply readAt_modifyAt_of _ _ _ _ _ _ (update_hf g h p q)
  intro m r _ _
  exact textContent_modifyAt _ r m (fun m' _ => textContent_update g h m')

theorem firstElementChild_update (g : List String → List String)
    (h : List (String × String) → List (String × String)) (q : Path) (root : Node) (p : Path) :
    firstElementChild (modifyAt (Node.update g h) q root) p = firstElementChild root p := by
  unfold firstElementChild
  congr 1
  apply readAt_modifyAt_of _ _ _ _ _ _ (update_hf g h p q)
  intro m r _ _
  cases r with
  | nil => simpa [modifyAt] using firstElementChildIndex_update g h m
  | cons k r => exact firstElementChildIndex_modifyAt_cons _ (isElement_update g h) k r m

theorem ingredientValue_update (g : List String → List String)
    (h : List (String × String) → List (String × String))
    (hg : KeepsToken "toggle-string" g) (hh : KeepsAttr "type" h)
    (q : Path) (root : Node) (ing : Path) :
    ingredientValue (modifyAt (Node.update g h) q root) ing = ingredientValue root ing := by
  unfold ingredientValue
  simp only [getAttributeAt_update "type" g h hh, checkedAt_update,
    classContainsAt_update "toggle-string" g h hg, firstElementChild_update,
    textContentAt_update, valueAt_update]

/-! ## The loops of `getConfig` -/

theorem traverse_congr {α β : Type} (f f' : α → Option β) (l : List α)
    (h : ∀ a ∈ l, f a = f' a) : traverse f l = traverse f' l := by
  induction l with
  | nil => rfl
  | cons a as ih =>
    simp only [traverse]
    rw [h a (by simp), ih (fun x hx => h x (by simp [hx]))]

theorem traverse_eq_some_iff {α β : Type} (f : α → Option β) (l : List α) (bs : List β) :
    traverse f l = some bs ↔ List.Forall₂ (fun a b => f a = some b) l bs := by
  induction l generalizing bs with
  | nil =>
    simp only [traverse, Option.some.injEq, List.forall₂_nil_left_iff]
    exact eq_comm
  | cons a as ih =>
    simp only [traverse]
    cases hfa : f a with
    | none =>
      constructor
      · intro h
        cases h
      · intro hcon
        cases hcon with
        | cons h1 _ => simp [hfa] at h1
    | some b =>
      cases htr : traverse f as with
      | none =>
        constructor
        · intro h
          cases h
        · intro hcon
          cases hcon with
          | cons _ h2 =>
            have := (ih _).mpr h2
            simp [htr] at this
      | some bs' =>
        simp only [Option.some.injEq]
        constructor
        · intro h
          subst h
          exact List.Forall₂.cons hfa ((ih bs').mp htr)
        · intro hcon
          cases hcon with
          | cons h1 h2 =>
            have e1 := (ih _).mpr h2
            rw [htr] at e1
            rw [hfa] at h1
            simp only [Option.some.injEq] at e1 h1
            rw [e1, h1]

theorem traverse_length {α β : Type} (f : α → Option β) (l : List α) (bs : List β)
    (h : traverse f l = some bs) : bs.length = l.length :=
  ((traverse_eq_some_iff f l bs).mp h).length_eq.symm

theorem traverse_getElem? {α β : Type} (f : α → Option β) (l : List α) (bs : List β)
    (h : traverse f l = some bs) (i : Nat) (a : α) (ha : l[i]? = some a) :
    ∃ b, bs[i]? = some b ∧ f a = some b := by
  induction l generalizing bs i with
  | nil => simp at ha
  | cons x xs ih =>
    have hall := (traverse_eq_some_iff f (x :: xs) bs).mp h
    cases hall with
    | cons h1 h2 =>
      cases i with
      | zero =>
        simp only [List.getElem?_cons_zero, Option.some.injEq] at ha
        subst ha
        exact ⟨_, by simp, h1⟩
      | succ i =>
        simp only [List.getElem?_cons_succ] at ha
        obtain ⟨b, hb, hfb⟩ := ih _ ((traverse_eq_some_iff f xs _).mpr h2) i ha
        exact ⟨b, by simpa using hb, hfb⟩

theorem traverse_exists {α β : Type} (f : α → Option β) (l : List α)
    (h : ∀ a ∈ l, ∃ b, f a = some b) : ∃ bs, traverse f l = some bs := by
  induction l with
  | nil => exact ⟨[], rfl⟩
  | cons a as ih =>
    obtain ⟨b, hb⟩ := h a (by simp)
    obtain ⟨bs, hbs⟩ := ih (fun x hx => h x (by simp [hx]))
    exact ⟨b :: bs, by simp [traverse, hb, hbs]⟩

/-- The record `getConfig` builds for an entry, in terms of what it reads. -/
theorem configItem_eq (root : Node) (operation : Path) :
    configItem root operation =
      match traverse (ingredientValue root) (entryArguments root operation),
        entryName root operation with
      | some args, some name =>
        some ⟨name, args, flagField (entryDisabled root operation),
          flagField (entryBreakpoint root operation)⟩
      | _, _ => none := by
  unfold configItem entryArguments entryName entryDisabled entryBreakpoint flagField
  dsimp only
  generalize traverse (ingredientValue root) (querySelectorAll root operation (hasClass "arg"))
    = ingredients
  generalize querySelector root operation (hasClass "arg-title") = title
  generalize querySelector root operation (hasClass "disable-icon") = disabled
  generalize querySelector root operation (hasClass "breakpoint") = bp
  cases ingredients with
  | none => rfl
  | some args =>
    cases title with
    | none => rfl
    | some title =>
      cases disabled with
      | none =>
        cases bp with
        | none => rfl
        | some b =>
          by_cases hb : getAttributeAt root b "break" = some "true" <;> simp [hb]
      | some d =>
        cases bp with
        | none =>
          by_cases hd : getAttributeAt root d "disabled" = some "true" <;> simp [hd]
        | some b =>
          by_cases hd : getAttributeAt root d "disabled" = some "true" <;>
            by_cases hb : getAttributeAt root b "break" = some "true" <;> simp [hd, hb]

/-! ## Records of `getConfig` -/

theorem configItem_some (root : Node) (operation : Path) (item : RecipeItem)
    (h : configItem root operation = some item) :
    entryName root operation = some item.op ∧
      traverse (ingredientValue root) (entryArguments root operation) = some item.args ∧
      item.disabled = flagField (entryDisabled root operation) ∧
      item.breakpoint = flagField (entryBreakpoint root operation) := by
  rw [configItem_eq] at h
  cases hargs : traverse (ingredientValue root) (entryArguments root operation) with
  | none => simp [hargs] at h
  | some args =>
    cases hname : entryName root operation with
    | none => simp [hargs, hname] at h
    | some name =>
      simp only [hargs, hname, Option.some.injEq] at h
      subst h
      exact ⟨rfl, rfl, rfl, rfl⟩

theorem getConfig_getElem? (root : Node) (cfg : List RecipeItem) (hcfg : getConfig root = some cfg)
    (i : Nat) (operation : Path) (hop : (operations root)[i]? = some operation) :
    ∃ item, cfg[i]? = some item ∧ configItem root operation = some item :=
  traverse_getElem? (configItem root) (operations root) cfg hcfg i operation hop

theorem flagField_isSome (b : Bool) : (flagField b).isSome = b := by
  cases b <;> rfl

theorem flagField_eq_some (b v : Bool) (h : flagField b = some v) : v = true := by
  cases b
  · simp [flagField] at h
  · simpa [flagField] using h.symm

/-- C2. The record `getConfig` emits for an entry has a `disabled` field exactly when
the entry is disabled and a `breakpoint` field exactly when its breakpoint is set, and
a field that is present has the value `true`. -/
theorem getConfig_optional_flags (root : Node) (cfg : List RecipeItem)
    (hcfg : getConfig root = some cfg) (i : Nat) (operation : Path) (item : RecipeItem)
    (hop : (operations root)[i]? = some operation) (hitem : cfg[i]? = some item) :
    (item.disabled.isSome = true ↔ entryDisabled root operation = true) ∧
      (item.breakpoint.isSome = true ↔ entryBreakpoint root operation = true) ∧
      (∀ v, item.disabled = some v → v = true) ∧
      (∀ v, item.breakpoint = some v → v = true) ∧
      item.disabled ≠ some false ∧ item.breakpoint ≠ some false := by
  obtain ⟨item', hitem', hconf⟩ := getConfig_getElem? root cfg hcfg i operation hop
  rw [hitem] at hitem'
  simp only [Option.some.injEq] at hitem'
  subst hitem'
  obtain ⟨_, _, hd, hb⟩ := configItem_some root operation item hconf
  rw [hd, hb]
  refine ⟨by rw [flagField_isSome], by rw [flagField_isSome],
    fun v hv => flagField_eq_some _ v hv, fun v hv => flagField_eq_some _ v hv, ?_, ?_⟩
  · intro hv
    exact absurd (flagField_eq_some _ _ hv) (by decide)
  · intro hv
    exact absurd (flagField_eq_some _ _ hv) (by decide)

/-- C2, witness: the record of `MD5` after a click on its disable icon. -/
theorem getConfig_optional_flags_witness :
    ((⟨"MD5", [], some true, none⟩ : RecipeItem).disabled.isSome = true ↔
        entryDisabled (disableClick exampleWaiter [1, 1, 1]).recList [1] = true) ∧
      ((⟨"MD5", [], some true, none⟩ : RecipeItem).breakpoint.isSome = true ↔
        entryBreakpoint (disableClick exampleWaiter [1, 1, 1]).recList [1] = true) ∧
      (∀ v, (⟨"MD5", [], some true, none⟩ : RecipeItem).disabled = some v → v = true) ∧
      (∀ v, (⟨"MD5", [], some true, none⟩ : RecipeItem).breakpoint = some v → v = true) ∧
      (⟨"MD5", [], some true, none⟩ : RecipeItem).disabled ≠ some false ∧
      (⟨"MD5", [], some true, none⟩ : RecipeItem).breakpoint ≠ some false :=
  getConfig_optional_flags (disableClick exampleWaiter [1, 1, 1]).recList
    [⟨"Base64", [.str "A-Za-z0-9+/="], none, none⟩, ⟨"MD5", [], some true, none⟩]
    (by decide) 1 [1] ⟨"MD5", [], some true, none⟩ (by decide) (by decide)

/-! ## Drag gestures -/

theorem deliver_removeIntent (s : Waiter) (e : ZoneEvent) :
    (deliver s e).removeIntent = e.leaves := by
  cases e <;> rfl

theorem deliver_recList (s : Waiter) (e : ZoneEvent) : (deliver s e).recList = s.recList := by
  cases e <;> rfl

theorem deliver_dispatched (s : Waiter) (e : ZoneEvent) :
    (deliver s e).dispatched = s.dispatched := by
  cases e <;> rfl

theorem intentAfter_cons (b : Bool) (e : ZoneEvent) (es : List ZoneEvent) :
    intentAfter b (e :: es) = intentAfter e.leaves es := by
  cases es with
  | nil => simp [intentAfter]
  | cons e' es =>
    simp only [intentAfter, List.getLast?_cons_cons]
    cases h : (e' :: es).getLast? with
    | none => simp at h
    | some x => rfl

theorem deliverAll_spec (s : Waiter) (events : List ZoneEvent) :
    (deliverAll s events).removeIntent = intentAfter s.removeIntent events ∧
      (deliverAll s events).recList = s.recList ∧
      (deliverAll s events).dispatched = s.dispatched := by
  induction events generalizing s with
  | nil => exact ⟨rfl, rfl, rfl⟩
  | cons e es ih =>
    have h := ih (deliver s e)
    rw [deliver_removeIntent, deliver_recList, deliver_dispatched] at h
    rw [intentAfter_cons]
    exact h

theorem childNodes_removeNode_child (k : Nat) (root : Node) :
    (removeNode [k] root).childNodes = root.childNodes.eraseIdx k := by
  cases root <;> simp [removeNode, modifyAt, setChildNodes, Node.childNodes]

/-- C3, as amended.  At the end of a drag gesture of a recipe entry, `onEnd` removes
the dragged entry and dispatches `operationremove` exactly when the last `dragover`,
`dragleave` or `touchend` event of the gesture was a `dragleave` or a `touchend`
released outside the recipe zone; when the gesture delivered no such event, exactly
when `removeIntent` was still set from before the gesture.  Otherwise the list and
the dispatched events are left as they were. -/
theorem recListOnEnd_after_events (s : Waiter) (events : List ZoneEvent) (item : Nat) :
    (intentAfter s.removeIntent events = true →
        (recListOnEnd (deliverAll s events) item).recList.childNodes
            = s.recList.childNodes.eraseIdx item ∧
          (recListOnEnd (deliverAll s events) item).dispatched
            = s.dispatched ++ [.operationremove]) ∧
      (intentAfter s.removeIntent events = false →
        (recListOnEnd (deliverAll s events) item).recList = s.recList ∧
          (recListOnEnd (deliverAll s events) item).dispatched = s.dispatched) ∧
      (events ≠ [] → intentAfter s.removeIntent events = lastEventLeaves events) ∧
      intentAfter s.removeIntent [] = s.removeIntent := by
  obtain ⟨h1, h2, h3⟩ := deliverAll_spec s events
  refine ⟨?_, ?_, ?_, rfl⟩
  · intro h
    rw [h] at h1
    simp [recListOnEnd, h1, dispatchEvent, childNodes_removeNode_child, h2, h3]
  · intro h
    rw [h] at h1
    simp only [recListOnEnd, h1]
    exact ⟨h2, h3⟩
  · intro hne
    unfold intentAfter lastEventLeaves
    cases hl : events.getLast? with
    | none => exact absurd (List.getLast?_eq_none_iff.mp hl) hne
    | some e => rfl

/-- C3, witness: a gesture that ends with a `dragleave` removes the entry, one that ends
with a `dragover` keeps it. -/
theorem recListOnEnd_after_events_witness :
    ((recListOnEnd (deliverAll exampleWaiter [.dragover, .dragleave]) 0).recList.childNodes
          = exampleWaiter.recList.childNodes.eraseIdx 0 ∧
        (recListOnEnd (deliverAll exampleWaiter [.dragover, .dragleave]) 0).dispatched
          = exampleWaiter.dispatched ++ [.operationremove]) ∧
      ((recListOnEnd (deliverAll exampleWaiter [.dragleave, .dragover]) 0).recList
          = exampleWaiter.recList ∧
        (recListOnEnd (deliverAll exampleWaiter [.dragleave, .dragover]) 0).dispatched
          = exampleWaiter.dispatched) :=
  ⟨(recListOnEnd_after_events exampleWaiter [.dragover, .dragleave] 0).1 (by decide),
    (recListOnEnd_after_events exampleWaiter [.dragleave, .dragover] 0).2.1 (by decide)⟩

/-- C3, counterexample.  After a first gesture that ended outside the zone, a second
gesture of the remaining entry that delivers no event to the zone has no last event
that left it, yet `onEnd` removes the entry and dispatches `operationremove`. -/
theorem recListOnEnd_stale_intent_removes :
    lastEventLeaves [] = false ∧
      (recListOnEnd (deliverAll exampleWaiter [.dragover, .dragleave]) 0).recList.childNodes.length
        = 1 ∧
      (recListOnEnd
          (deliverAll (recListOnEnd (deliverAll exampleWaiter [.dragover, .dragleave]) 0) [])
          0).recList.childNodes.length = 0 ∧
      (recListOnEnd
          (deliverAll (recListOnEnd (deliverAll exampleWaiter [.dragover, .dragleave]) 0) [])
          0).dispatched
        = (recListOnEnd (deliverAll exampleWaiter [.dragover, .dragleave]) 0).dispatched
          ++ [.operationremove] := by
  decide

/-- C4, as amended.  Neither gesture-end handler writes `removeIntent`: after the
recipe list's `onEnd` and after `opSortEnd` it has the value it had when the handler
was entered, so a gesture that delivers no event to the recipe zone is decided by the
flag the last event of an earlier gesture left. -/
theorem gesture_end_keeps_removeIntent (catalog : Catalog) (s : Waiter) :
    (∀ item, (recListOnEnd s item).removeIntent = s.removeIntent) ∧
      (∀ item, (opSortEnd catalog s item).state.removeIntent = s.removeIntent) ∧
      (∀ item, recListOnEnd (deliverAll s []) item = recListOnEnd s item) ∧
      (∀ item, opSortEnd catalog (deliverAll s []) item = opSortEnd catalog s item) := by
  refine ⟨?_, ?_, fun _ => rfl, fun _ => rfl⟩
  · intro item
    unfold recListOnEnd
    split <;> rfl
  · intro item
    unfold opSortEnd
    cases hri : s.removeIntent with
    | true =>
      cases item <;> simp [Completion.state, hri]
    | false =>
      cases item with
      | none => simp [Completion.state, hri]
      | some k =>
        simp only [Bool.false_eq_true, if_false, buildRecipeOperation]
        cases catalog (textContentAt s.recList [k]) with
        | none => simp [Completion.state, hri]
        | some op =>
          by_cases hm : (op.manualBake && s.autoBake) = true
          · simp [Completion.state, hri, hm, dispatchEvent]
          · simp [Completion.state, hri, hm, dispatchEvent]

/-- C4, counterexample.  After a gesture that left the recipe zone, `removeIntent` is
still true when `onEnd` has returned, and still true when `opSortEnd` has returned. -/
theorem removeIntent_not_reset :
    (recListOnEnd (deliverAll exampleWaiter [.dragover, .dragleave]) 0).removeIntent = true ∧
      (opSortEnd exampleCatalog (deliverAll exampleDropWaiter [.dragover, .dragleave])
        (some 1)).state.removeIntent = true := by
  decide

/-! ## Clearing the recipe -/

theorem removeChildrenLoop_eq_nil (cs : List Node) : removeChildrenLoop cs = [] := by
  induction cs with
  | nil => rfl
  | cons c cs ih => simpa [removeChildrenLoop] using ih

theorem select_of_childNodes_nil (sel : Node → Bool) (n : Node) (h : n.childNodes = []) :
    select sel n = [] := by
  rw [select_eq_selectList, h]
  rfl

theorem getConfig_of_childNodes_nil (root : Node) (h : root.childNodes = []) :
    getConfig root = some [] := by
  have hops : operations root = [] := by
    simp [operations, querySelectorAll, getNode, select_of_childNodes_nil liOperation root h]
  simp [getConfig, hops, traverse]

theorem setChildNodes_childNodes (n : Node) : setChildNodes n.childNodes n = n := by
  cases n <;> rfl

/-- C5. `clearRecipe` is total; it leaves `#rec-list` without children, so that the
following `getConfig` returns the empty sequence, and dispatches `operationremove`
exactly once.  On a list that is already empty it changes nothing of the document and
still dispatches that one event. -/
theorem clearRecipe_spec (s : Waiter) :
    (clearRecipe s).recList.childNodes = [] ∧
      getConfig (clearRecipe s).recList = some [] ∧
      (clearRecipe s).dispatched = s.dispatched ++ [.operationremove] ∧
      (clearRecipe s).dispatched.count .operationremove
        = s.dispatched.count .operationremove + 1 ∧
      (s.recList.childNodes = [] →
        (clearRecipe s).recList = s.recList ∧
          (clearRecipe s).dispatched = s.dispatched ++ [.operationremove]) := by
  have hch : (clearRecipe s).recList.childNodes = [] := by
    simp only [clearRecipe, dispatchEvent, removeChildrenLoop_eq_nil]
    cases s.recList <;> rfl
  refine ⟨hch, getConfig_of_childNodes_nil _ hch, rfl, ?_, ?_⟩
  · simp [clearRecipe, dispatchEvent]
  · intro hempty
    refine ⟨?_, rfl⟩
    simp only [clearRecipe, dispatchEvent, removeChildrenLoop_eq_nil]
    rw [← hempty]
    exact setChildNodes_childNodes s.recList

/-- C5, witness: clearing the recipe a second time, when it is already empty. -/
theorem clearRecipe_spec_witness :
    (clearRecipe (clearRecipe exampleWaiter)).recList = (clearRecipe exampleWaiter).recList ∧
      (clearRecipe (clearRecipe exampleWaiter)).dispatched
        = (clearRecipe exampleWaiter).dispatched ++ [.operationremove] :=
  (clearRecipe_spec (clearRecipe exampleWaiter)).2.2.2.2 rfl

/-! ## Reordering inside the recipe list -/

theorem recListOnEnd_keep (s : Waiter) (item : Nat) (h : s.removeIntent = false) :
    recListOnEnd s item = s := by
  simp [recListOnEnd, h]

/-- C7, the code at the failing input.  The entry `Base64` of the recipe `Base64`,
`MD5` is dragged below `MD5` without leaving the zone.  When the gesture ends the list
is `MD5`, `Base64` and `onEnd` dispatches nothing: no event at all reaches the
manager, so no state change is notified for the move. -/
theorem recListOnEnd_reorder_dispatches_nothing :
    (recListOnEnd (deliverAll exampleReorderedWaiter [.dragover, .dragover]) 1).dispatched = [] ∧
      getConfig (recListOnEnd (deliverAll exampleReorderedWaiter [.dragover, .dragover]) 1).recList
        = some [⟨"MD5", [], none, none⟩, ⟨"Base64", [.str "A-Za-z0-9+/="], none, none⟩] ∧
      getConfig exampleWaiter.recList
        = some [⟨"Base64", [.str "A-Za-z0-9+/="], none, none⟩, ⟨"MD5", [], none, none⟩] := by
  decide

/-! ## The end of a drag from the catalog -/

theorem modifyChild_modifyChild (f g : Node → Node) (k : Nat) (cs : List Node) :
    modifyChild f k (modifyChild g k cs) = modifyChild (fun n => f (g n)) k cs := by
  induction cs generalizing k with
  | nil => simp [modifyChild]
  | cons c cs ih =>
    cases k with
    | zero => rfl
    | succ k => simp [modifyChild, ih]

theorem buildRecipeOperation_some (catalog : Catalog) (s : Waiter) (k : Nat) (op : OperationInfo)
    (hop : catalog (textContentAt s.recList [k]) = some op) :
    ∃ s', buildRecipeOperation catalog s [k] = .returned s' ∧
      s'.recList.childNodes = modifyChild (fullOperation op) k s.recList.childNodes ∧
      s'.dispatched = s.dispatched ∧ s'.removeIntent = s.removeIntent := by
  have hch : (if op.flowControl = true then
        modifyAt (classListAdd "flow-control-op") [k]
          (modifyAt (setChildNodes op.fullHtml) [k] s.recList)
      else modifyAt (setChildNodes op.fullHtml) [k] s.recList).childNodes
      = modifyChild (fullOperation op) k s.recList.childNodes := by
    have hid : ∀ f : Node → Node, modifyAt f [] = f := fun f => by
      funext n
      rfl
    cases s.recList with
    | text d => cases op.flowControl <;> simp [modifyAt, Node.childNodes, modifyChild]
    | element e cs =>
      have hfull : fullOperation op = fun n =>
          if op.flowControl = true then classListAdd "flow-control-op" (setChildNodes op.fullHtml n)
          else setChildNodes op.fullHtml n := by
        funext n
        rfl
      rw [hfull]
      cases hfc : op.flowControl
      · simp [modifyAt, Node.childNodes, hid]
      · simp [modifyAt, Node.childNodes, hid, modifyChild_modifyChild]
  unfold buildRecipeOperation
  simp only [hop]
  by_cases hm : (op.manualBake && s.autoBake) = true
  · simp only [hm, if_true]
    exact ⟨_, rfl, hch, rfl, rfl⟩
  · simp only [hm]
    exact ⟨_, rfl, hch, rfl, rfl⟩

/-- C8. At the end of a drag that started in the catalog: with delete intent set, the
item is taken out of the recipe list if it is there, nothing is built and nothing is
dispatched; otherwise an item that landed in the recipe list is built into a full
recipe operation at its position and `operationadd` is dispatched exactly once; and an
item that landed anywhere else leaves the list and the dispatched events untouched. -/
theorem opSortEnd_outcomes (catalog : Catalog) (s : Waiter) :
    (s.removeIntent = true →
      (∀ k, ∃ s', opSortEnd catalog s (some k) = .returned s' ∧
        s'.recList.childNodes = s.recList.childNodes.eraseIdx k ∧
        s'.dispatched = s.dispatched) ∧
      opSortEnd catalog s none = .returned s) ∧
    (s.removeIntent = false →
      (∀ k op, catalog (textContentAt s.recList [k]) = some op →
        ∃ s', opSortEnd catalog s (some k) = .returned s' ∧
          s'.recList.childNodes = modifyChild (fullOperation op) k s.recList.childNodes ∧
          s'.dispatched = s.dispatched ++ [.operationadd]) ∧
      opSortEnd catalog s none = .returned s) := by
  constructor
  · intro h
    constructor
    · intro k
      exact ⟨{ s with recList := removeNode [k] s.recList }, by simp [opSortEnd, h],
        childNodes_removeNode_child k s.recList, rfl⟩
    · simp [opSortEnd, h]
  · intro h
    constructor
    · intro k op hop
      obtain ⟨s', hs', hch, hd, _⟩ := buildRecipeOperation_some catalog s k op hop
      refine ⟨dispatchEvent s' .operationadd, by simp [opSortEnd, h, hs'], hch, ?_⟩
      simp [dispatchEvent, hd]
    · simp [opSortEnd, h]

/-- C8, witness: an `MD5` stub dropped at index 1, with delete intent and without. -/
theorem opSortEnd_outcomes_witness :
    ((∀ k, ∃ s', opSortEnd exampleCatalog
          (deliverAll exampleDropWaiter [.dragover, .dragleave]) (some k) = .returned s' ∧
        s'.recList.childNodes
          = (deliverAll exampleDropWaiter [.dragover, .dragleave]).recList.childNodes.eraseIdx k ∧
        s'.dispatched = (deliverAll exampleDropWaiter [.dragover, .dragleave]).dispatched) ∧
      opSortEnd exampleCatalog (deliverAll exampleDropWaiter [.dragover, .dragleave]) none
        = .returned (deliverAll exampleDropWaiter [.dragover, .dragleave])) ∧
    (∃ s', opSortEnd exampleCatalog exampleDropWaiter (some 1) = .returned s' ∧
      s'.recList.childNodes
        = modifyChild (fullOperation ⟨[mkElement "div" ["arg-title"] [] [.text "MD5"],
            exampleIcons], false, false⟩) 1 exampleDropWaiter.recList.childNodes ∧
      s'.dispatched = exampleDropWaiter.dispatched ++ [.operationadd]) :=
  ⟨(opSortEnd_outcomes exampleCatalog
      (deliverAll exampleDropWaiter [.dragover, .dragleave])).1 (by decide),
    ((opSortEnd_outcomes exampleCatalog exampleDropWaiter).2 (by decide)).1 1 _ rfl⟩

/-! ## What `getConfig` returns -/

theorem ingredientValue_checkbox (root : Node) (ing : Path)
    (h : argKind root ing = .checkbox) :
    ingredientValue root ing = some (.bool (checkedAt root ing)) := by
  unfold argKind at h
  unfold ingredientValue
  by_cases h1 : getAttributeAt root ing "type" = some "checkbox"
  · simp [h1]
  · by_cases h2 : classContainsAt root ing "toggle-string" = true <;> simp [h1, h2] at h

theorem ingredientValue_other (root : Node) (ing : Path)
    (h : argKind root ing = .other) :
    ingredientValue root ing = some (.str (valueAt root ing)) := by
  unfold argKind at h
  unfold ingredientValue
  by_cases h1 : getAttributeAt root ing "type" = some "checkbox"
  · simp [h1] at h
  · by_cases h2 : classContainsAt root ing "toggle-string" = true
    · simp [h1, h2] at h
    · simp [h1, h2]

theorem ingredientValue_toggleString (root : Node) (ing : Path)
    (h : argKind root ing = .toggleString) :
    ingredientValue root ing =
      (toggleButton root ing).map
        (fun button => .toggle (sliceDropLast (textContentAt root button)) (valueAt root ing)) := by
  unfold argKind at h
  unfold ingredientValue toggleButton
  by_cases h1 : getAttributeAt root ing "type" = some "checkbox"
  · simp [h1] at h
  · by_cases h2 : classContainsAt root ing "toggle-string" = true
    · simp only [h1, h2, if_false, if_true]
      cases previousSibling ing with
      | none => rfl
      | some sib =>
        simp only [Option.some_bind]
        cases firstElementChild root sib <;> rfl
    · simp [h1, h2] at h

/-- C1. For a recipe list whose entries each have a title element and whose
toggle-string arguments each have their option button, `getConfig` returns one record
per entry, in the order of the entries; the record's `op` is the entry's name and its
`args` holds one value per argument element, in order: the `checked` boolean for a
checkbox, the pair of option and string for a toggle-string argument, and the string
value for any other argument. -/
theorem getConfig_records (root : Node)
    (htitle : ∀ operation ∈ operations root, (entryName root operation).isSome = true)
    (htoggle : ∀ operation ∈ operations root, ∀ ing ∈ entryArguments root operation,
      argKind root ing = .toggleString → (toggleButton root ing).isSome = true) :
    ∃ cfg, getConfig root = some cfg ∧ cfg.length = (operations root).length ∧
      ∀ (i : Nat) (operation : Path), (operations root)[i]? = some operation →
        ∃ item : RecipeItem, cfg[i]? = some item ∧ entryName root operation = some item.op ∧
          item.args.length = (entryArguments root operation).length ∧
          ∀ (j : Nat) (ing : Path), (entryArguments root operation)[j]? = some ing →
            ∃ v : ArgValue, item.args[j]? = some v ∧
              (argKind root ing = .checkbox → v = .bool (checkedAt root ing)) ∧
              (argKind root ing = .toggleString →
                ∃ button, toggleButton root ing = some button ∧
                  v = .toggle (sliceDropLast (textContentAt root button)) (valueAt root ing)) ∧
              (argKind root ing = .other → v = .str (valueAt root ing)) := by
  have hing : ∀ operation ∈ operations root, ∀ ing ∈ entryArguments root operation,
      ∃ v, ingredientValue root ing = some v := by
    intro operation hop ing hmem
    cases hk : argKind root ing with
    | checkbox => exact ⟨_, ingredientValue_checkbox root ing hk⟩
    | other => exact ⟨_, ingredientValue_other root ing hk⟩
    | toggleString =>
      rw [ingredientValue_toggleString root ing hk]
      have hb := htoggle operation hop ing hmem hk
      cases hbtn : toggleButton root ing with
      | none => simp [hbtn] at hb
      | some button => exact ⟨_, rfl⟩
  have hitem : ∀ operation ∈ operations root, ∃ item, configItem root operation = some item := by
    intro operation hop
    obtain ⟨args, hargs⟩ := traverse_exists (ingredientValue root) _ (hing operation hop)
    have hn := htitle operation hop
    cases hname : entryName root operation with
    | none => simp [hname] at hn
    | some name =>
      rw [configItem_eq, hargs, hname]
      exact ⟨_, rfl⟩
  obtain ⟨cfg, hcfg⟩ := traverse_exists (configItem root) (operations root) hitem
  refine ⟨cfg, hcfg, traverse_length _ _ _ hcfg, ?_⟩
  intro i operation hop
  obtain ⟨item, hi, hconf⟩ := getConfig_getElem? root cfg hcfg i operation hop
  obtain ⟨hname, hargs, _, _⟩ := configItem_some root operation item hconf
  refine ⟨item, hi, hname, traverse_length _ _ _ hargs, ?_⟩
  intro j ing hj
  obtain ⟨v, hv, hval⟩ := traverse_getElem? _ _ _ hargs j ing hj
  refine ⟨v, hv, ?_, ?_, ?_⟩
  · intro hk
    rw [ingredientValue_checkbox root ing hk] at hval
    exact (Option.some.inj hval).symm
  · intro hk
    rw [ingredientValue_toggleString root ing hk] at hval
    cases hbtn : toggleButton root ing with
    | none => simp [hbtn] at hval
    | some button =>
      rw [hbtn] at hval
      exact ⟨button, rfl, (Option.some.inj hval).symm⟩
  · intro hk
    rw [ingredientValue_other root ing hk] at hval
    exact (Option.some.inj hval).symm

/-- C1, witness: the recipe `XOR`, `MD5`, with a toggle-string argument and a checkbox. -/
theorem getConfig_records_witness :
    ∃ cfg, getConfig exampleXORRecipe = some cfg ∧
      cfg.length = (operations exampleXORRecipe).length ∧
      ∀ (i : Nat) (operation : Path), (operations exampleXORRecipe)[i]? = some operation →
        ∃ item : RecipeItem, cfg[i]? = some item ∧ entryName exampleXORRecipe operation = some item.op ∧
          item.args.length = (entryArguments exampleXORRecipe operation).length ∧
          ∀ (j : Nat) (ing : Path), (entryArguments exampleXORRecipe operation)[j]? = some ing →
            ∃ v : ArgValue, item.args[j]? = some v ∧
              (argKind exampleXORRecipe ing = .checkbox →
                v = .bool (checkedAt exampleXORRecipe ing)) ∧
              (argKind exampleXORRecipe ing = .toggleString →
                ∃ button, toggleButton exampleXORRecipe ing = some button ∧
                  v = .toggle (sliceDropLast (textContentAt exampleXORRecipe button))
                    (valueAt exampleXORRecipe ing)) ∧
              (argKind exampleXORRecipe ing = .other → v = .str (valueAt exampleXORRecipe ing)) :=
  getConfig_records exampleXORRecipe (by decide) (by decide)

/-! ## The paths a query returns -/

theorem mem_selectList (sel : Node → Bool) (k : Nat) (cs : List Node) (p : Path) :
    p ∈ selectList sel k cs ↔
      ∃ j c r, cs[j]? = some c ∧ p = (k + j) :: r ∧ (r = [] ∧ sel c = true ∨ r ∈ select sel c) := by
  induction cs generalizing k with
  | nil => simp [selectList]
  | cons c cs ih =>
    simp only [selectList, List.mem_append, List.mem_map, ih]
    constructor
    · rintro ((h | ⟨r, hr, rfl⟩) | ⟨j, c', r, hc', rfl, h⟩)
      · by_cases hs : sel c = true
        · simp only [hs, if_true, List.mem_singleton] at h
          exact ⟨0, c, [], by simp, by simp [h], Or.inl ⟨rfl, hs⟩⟩
        · simp [hs] at h
      · exact ⟨0, c, r, by simp, by simp, Or.inr hr⟩
      · exact ⟨j + 1, c', r, by simpa using hc', by simp [Nat.add_assoc, Nat.add_comm 1 j], h⟩
    · rintro ⟨j, c', r, hc', rfl, h⟩
      cases j with
      | zero =>
        simp only [List.getElem?_cons_zero, Option.some.injEq] at hc'
        subst hc'
        rcases h with ⟨rfl, hs⟩ | hr
        · exact Or.inl (Or.inl (by simp [hs]))
        · exact Or.inl (Or.inr ⟨r, hr, by simp⟩)
      | succ j =>
        refine Or.inr ⟨j, c', r, by simpa using hc', ?_, h⟩
        simp [Nat.add_assoc, Nat.add_comm 1 j]

theorem mem_select (sel : Node → Bool) (n : Node) (p : Path) :
    p ∈ select sel n ↔
      ∃ j c r, n.childNodes[j]? = some c ∧ p = j :: r ∧
        (r = [] ∧ sel c = true ∨ r ∈ select sel c) := by
  rw [select_eq_selectList, mem_selectList]
  simp

theorem select_ne_nil (sel : Node → Bool) (n : Node) (p : Path) (h : p ∈ select sel n) :
    p ≠ [] := by
  obtain ⟨j, c, r, _, rfl, _⟩ := (mem_select sel n p).mp h
  simp

/-- A query returns only paths of existing nodes that match the selector. -/
theorem select_valid (sel : Node → Bool) (n : Node) (p : Path) (h : p ∈ select sel n) :
    ∃ m, getNode n p = some m ∧ sel m = true := by
  induction p generalizing n with
  | nil => exact absurd rfl (select_ne_nil sel n [] h)
  | cons x p ih =>
    obtain ⟨j, c, r, hc, hp, hr⟩ := (mem_select sel n (x :: p)).mp h
    simp only [List.cons.injEq] at hp
    obtain ⟨rfl, rfl⟩ := hp
    rcases hr with ⟨rfl, hs⟩ | hr
    · exact ⟨c, by simp [getNode, hc], hs⟩
    · obtain ⟨m, hm, hs⟩ := ih c hr
      exact ⟨m, by simp [getNode, hc, hm], hs⟩

theorem selectList_nodup_of (sel : Node → Bool) (k : Nat) (c : Node) (cs : List Node)
    (h1 : (select sel c).Nodup) (h2 : (selectList sel (k + 1) cs).Nodup) :
    (selectList sel k (c :: cs)).Nodup := by
  simp only [selectList]
  rw [List.nodup_append, List.nodup_append]
  refine ⟨⟨?_, ?_, ?_⟩, h2, ?_⟩
  · split <;> simp
  · exact h1.map (fun a b hab => by simpa using hab)
  · intro a ha hb
    have hane : a = [k] := by
      by_cases hs : sel c = true
      · simpa [hs] using ha
      · simp [hs] at ha
    subst hane
    simp only [List.mem_map] at hb
    obtain ⟨r, hr, hkr⟩ := hb
    simp only [List.cons.injEq, true_and] at hkr
    subst hkr
    exact select_ne_nil sel c [] hr rfl
  · intro a ha hb
    obtain ⟨j, c', r, _, rfl, _⟩ := (mem_selectList sel (k + 1) cs a).mp hb
    simp only [List.mem_append, List.mem_map] at ha
    rcases ha with ha | ⟨r', _, hr'⟩
    · by_cases hs : sel c = true
      · simp only [hs, if_true, List.mem_singleton, List.cons.injEq] at ha
        omega
      · simp [hs] at ha
    · simp only [List.cons.injEq] at hr'
      omega

/-- A query returns no path twice. -/
theorem select_nodup (sel : Node → Bool) (n : Node) : (select sel n).Nodup :=
  select.induct sel (fun n => (select sel n).Nodup) (fun k cs => (selectList sel k cs).Nodup)
    (fun d => by simp [select])
    (fun e cs h => by simpa [select] using h)
    (fun k => by simp [selectList])
    (fun k c cs h1 h2 => selectList_nodup_of sel k c cs h1 h2)
    n

theorem operations_eq_select (root : Node) : operations root = select liOperation root := by
  simp [operations, querySelectorAll, getNode]

theorem operations_nodup (root : Node) : (operations root).Nodup := by
  rw [operations_eq_select]
  exact select_nodup liOperation root

theorem isElement_of_liOperation (m : Node) (h : liOperation m = true) : m.isElement = true := by
  cases m with
  | text d => simp [liOperation] at h
  | element e cs => rfl

theorem operations_isElement (root : Node) (operation : Path) (h : operation ∈ operations root) :
    readAt Node.isElement false root operation = true := by
  rw [operations_eq_select] at h
  obtain ⟨m, hm, hs⟩ := select_valid liOperation root operation h
  simp [readAt, hm, isElement_of_liOperation m hs]

/-! ## The breakpoint indicator -/

theorem indicatorLoop_operations (position : Int) (i : Nat) (ops : List Path) (root : Node) :
    operations (indicatorLoop position i ops root) = operations root := by
  induction ops generalizing i root with
  | nil => rfl
  | cons op rest ih =>
    simp only [indicatorLoop]
    rw [ih]
    split
    · exact querySelectorAll_update liOperation ownData_liOperation _ _
        (liOperation_update _ _ (keepsToken_tokenAdd _ _ (by decide))) op root []
    · exact querySelectorAll_update liOperation ownData_liOperation _ _
        (liOperation_update _ _ (keepsToken_tokenRemove _ _ (by decide))) op root []

theorem readAt_own_update_ne {α : Type} (obs : Node → α) (d : α) (hown : OwnData obs)
    (g : List String → List String) (h : List (String × String) → List (String × String))
    (q : Path) (root : Node) (p : Path) (hpq : p ≠ q) :
    readAt obs d (modifyAt (Node.update g h) q root) p = readAt obs d root p :=
  readAt_modifyAt obs d hown _ q root p (update_hf g h p q) (fun e => absurd e hpq)

theorem indicatorLoop_frame {α : Type} (obs : Node → α) (d : α) (hown : OwnData obs)
    (position : Int) (i : Nat) (ops : List Path) (root : Node) (p : Path) (hp : p ∉ ops) :
    readAt obs d (indicatorLoop position i ops root) p = readAt obs d root p := by
  induction ops generalizing i root with
  | nil => rfl
  | cons op rest ih =>
    simp only [List.mem_cons, not_or] at hp
    simp only [indicatorLoop]
    rw [ih _ _ hp.2]
    split
    · exact readAt_own_update_ne obs d hown _ _ op root p hp.1
    · exact readAt_own_update_ne obs d hown _ _ op root p hp.1

theorem isElement_readAt_update (g : List String → List String)
    (h : List (String × String) → List (String × String)) (q : Path) (root : Node) (p : Path) :
    readAt Node.isElement false (modifyAt (Node.update g h) q root) p =
      readAt Node.isElement false root p :=
  readAt_modifyAt _ _ ownData_isElement _ q root p (update_hf g h p q)
    (fun _ m => isElement_update g h m)

theorem hasClass_classListAdd_self (c : String) (m : Node) (hm : m.isElement = true) :
    hasClass c (classListAdd c m) = true := by
  cases m with
  | text d => simp [Node.isElement] at hm
  | element e cs =>
    simp only [classListAdd, Node.update, hasClass, tokenAdd, decide_eq_true_eq]
    split <;> simp_all

theorem hasClass_classListRemove_self (c : String) (m : Node) :
    hasClass c (classListRemove c m) = false := by
  cases m with
  | text d => rfl
  | element e cs => simp [classListRemove, Node.update, hasClass, tokenRemove]

theorem indicatorLoop_at (position : Int) (i : Nat) (ops : List Path) (root : Node)
    (hnodup : ops.Nodup) (j : Nat) (p : Path) (hj : ops[j]? = some p)
    (hel : readAt Node.isElement false root p = true) :
    classContainsAt (indicatorLoop position i ops root) p "break"
      = decide (((i + j : Nat) : Int) = position) := by
  induction ops generalizing i root j with
  | nil => simp at hj
  | cons op rest ih =>
    rw [List.nodup_cons] at hnodup
    simp only [indicatorLoop]
    cases j with
    | zero =>
      simp only [List.getElem?_cons_zero, Option.some.injEq] at hj
      subst hj
      unfold classContainsAt
      rw [indicatorLoop_frame _ _ (ownData_hasClass "break") _ _ _ _ _ hnodup.1]
      have hnode : ∃ m, getNode root op = some m ∧ m.isElement = true := by
        unfold readAt at hel
        cases hg : getNode root op with
        | none => simp [hg] at hel
        | some m => exact ⟨m, rfl, by simpa [hg] using hel⟩
      obtain ⟨m, hm, hme⟩ := hnode
      by_cases hpos : ((i : Nat) : Int) = position
      · simp only [hpos, if_true, Nat.add_zero, decide_True]
        rw [readAt_modifyAt_self]
        simp [readAt, hm, hasClass_classListAdd_self "break" m hme]
      · simp only [hpos, if_false, Nat.add_zero, decide_False]
        rw [readAt_modifyAt_self]
        simp [readAt, hm, hasClass_classListRemove_self "break" m]
    | succ j =>
      simp only [List.getElem?_cons_succ] at hj
      have key := fun root' hel' => ih (i + 1) root' hnodup.2 j hj hel'
      have harith : i + 1 + j = i + (j + 1) := by omega
      rw [harith] at key
      apply key
      split
      · rw [classListAdd, isElement_readAt_update]
        exact hel
      · rw [classListRemove, isElement_readAt_update]
        exact hel

/-- C9. After `updateBreakpointIndicator(p)` the recipe has the same entries, and the
entry at index `i` carries the class `break` exactly when `i` equals `p`, whatever
indicators were set before; so at most one entry carries it, and none does when `p`
is no index of the list. -/
theorem updateBreakpointIndicator_spec (s : Waiter) (position : Int) :
    operations (updateBreakpointIndicator s position).recList = operations s.recList ∧
      (∀ (i : Nat) (operation : Path),
        (operations (updateBreakpointIndicator s position).recList)[i]? = some operation →
        (classContainsAt (updateBreakpointIndicator s position).recList operation "break" = true
          ↔ (i : Int) = position)) ∧
      ((position < 0 ∨ ((operations s.recList).length : Int) ≤ position) →
        ∀ operation ∈ operations (updateBreakpointIndicator s position).recList,
          classContainsAt (updateBreakpointIndicator s position).recList operation "break"
            = false) := by
  have hops : operations (updateBreakpointIndicator s position).recList = operations s.recList :=
    indicatorLoop_operations position 0 (operations s.recList) s.recList
  have hat : ∀ (i : Nat) (operation : Path), (operations s.recList)[i]? = some operation →
      classContainsAt (updateBreakpointIndicator s position).recList operation "break"
        = decide ((i : Int) = position) := by
    intro i operation hi
    have h := indicatorLoop_at position 0 (operations s.recList) s.recList
      (operations_nodup s.recList) i operation hi
      (operations_isElement s.recList operation (List.getElem?_mem hi))
    simpa [updateBreakpointIndicator] using h
  refine ⟨hops, ?_, ?_⟩
  · intro i operation hi
    rw [hops] at hi
    rw [hat i operation hi]
    simp
  · intro hout operation hmem
    rw [hops] at hmem
    obtain ⟨i, hi⟩ := List.getElem?_of_mem hmem
    rw [hat i operation hi]
    have hlt : i < (operations s.recList).length := by
      by_contra hge
      rw [List.getElem?_eq_none (by omega)] at hi
      simp at hi
    simp only [decide_eq_false_iff_not]
    omega

/-- C9, witness: the indicator is set on entry 1, then removed by a position past the end. -/
theorem updateBreakpointIndicator_spec_witness :
    (classContainsAt (updateBreakpointIndicator exampleWaiter 1).recList [1] "break" = true
      ↔ ((1 : Nat) : Int) = 1) ∧
    (∀ operation ∈ operations (updateBreakpointIndicator
        (updateBreakpointIndicator exampleWaiter 1) 2).recList,
      classContainsAt (updateBreakpointIndicator
        (updateBreakpointIndicator exampleWaiter 1) 2).recList operation "break" = false) :=
  ⟨(updateBreakpointIndicator_spec exampleWaiter 1).2.1 1 [1] (by decide),
    (updateBreakpointIndicator_spec (updateBreakpointIndicator exampleWaiter 1) 2).2.2
      (Or.inr (by decide))⟩

/-! ## `getConfig` after a rewrite of class list and attributes -/

theorem keepsConfigTokens_id : KeepsConfigTokens id :=
  ⟨keepsToken_id _, keepsToken_id _, keepsToken_id _, keepsToken_id _, keepsToken_id _,
    keepsToken_id _⟩

theorem operations_update (g : List String → List String)
    (h : List (String × String) → List (String × String)) (hg : KeepsConfigTokens g)
    (q : Path) (root : Node) :
    operations (modifyAt (Node.update g h) q root) = operations root :=
  querySelectorAll_update liOperation ownData_liOperation g h
    (liOperation_update g h hg.1) q root []

theorem querySelector_hasClass_update (c : String) (g : List String → List String)
    (h : List (String × String) → List (String × String)) (hg : KeepsToken c g)
    (q : Path) (root : Node) (base : Path) :
    querySelector (modifyAt (Node.update g h) q root) base (hasClass c)
      = querySelector root base (hasClass c) :=
  querySelector_update (hasClass c) (ownData_hasClass c) g h (hasClass_update c g h hg) q root base

theorem entryArguments_update (g : List String → List String)
    (h : List (String × String) → List (String × String)) (hg : KeepsConfigTokens g)
    (q : Path) (root : Node) (operation : Path) :
    entryArguments (modifyAt (Node.update g h) q root) operation = entryArguments root operation :=
  querySelectorAll_update (hasClass "arg") (ownData_hasClass "arg") g h
    (hasClass_update "arg" g h hg.2.2.2.1) q root operation

theorem entryName_update (g : List String → List String)
    (h : List (String × String) → List (String × String)) (hg : KeepsConfigTokens g)
    (q : Path) (root : Node) (operation : Path) :
    entryName (modifyAt (Node.update g h) q root) operation = entryName root operation := by
  unfold entryName
  rw [querySelector_hasClass_update "arg-title" g h hg.2.2.2.2.1]
  cases querySelector root operation (hasClass "arg-title") with
  | none => rfl
  | some title => simp [textContentAt_update]

theorem traverse_ingredientValue_update (g : List String → List String)
    (h : List (String × String) → List (String × String)) (hg : KeepsConfigTokens g)
    (ht : KeepsAttr "type" h) (q : Path) (root : Node) (l : List Path) :
    traverse (ingredientValue (modifyAt (Node.update g h) q root)) l
      = traverse (ingredientValue root) l :=
  traverse_congr _ _ l (fun ing _ => ingredientValue_update g h hg.2.2.2.2.2 ht q root ing)

/-- The disabled flag after a rewrite: unchanged when the rewrite keeps the `disabled`
attribute or does not hit the disable icon of the entry. -/
theorem entryDisabled_update (g : List String → List String)
    (h : List (String × String) → List (String × String)) (hg : KeepsConfigTokens g)
    (q : Path) (root : Node) (operation : Path)
    (hkeep : KeepsAttr "disabled" h ∨
      querySelector root operation (hasClass "disable-icon") ≠ some q) :
    entryDisabled (modifyAt (Node.update g h) q root) operation = entryDisabled root operation := by
  unfold entryDisabled
  rw [querySelector_hasClass_update "disable-icon" g h hg.2.1]
  cases hd : querySelector root operation (hasClass "disable-icon") with
  | none => rfl
  | some d =>
    rcases hkeep with hk | hne
    · simp only [getAttributeAt_update "disabled" g h hk]
    · have hdq : d ≠ q := fun e => hne (by rw [hd, e])
      simp only [getAttributeAt_update_ne "disabled" g h q root d hdq]

/-- The breakpoint flag after a rewrite: unchanged when the rewrite keeps the `break`
attribute or does not hit the breakpoint control of the entry. -/
theorem entryBreakpoint_update (g : List String → List String)
    (h : List (String × String) → List (String × String)) (hg : KeepsConfigTokens g)
    (q : Path) (root : Node) (operation : Path)
    (hkeep : KeepsAttr "break" h ∨
      querySelector root operation (hasClass "breakpoint") ≠ some q) :
    entryBreakpoint (modifyAt (Node.update g h) q root) operation
      = entryBreakpoint root operation := by
  unfold entryBreakpoint
  rw [querySelector_hasClass_update "breakpoint" g h hg.2.2.1]
  cases hd : querySelector root operation (hasClass "breakpoint") with
  | none => rfl
  | some d =>
    rcases hkeep with hk | hne
    · simp only [getAttributeAt_update "break" g h hk]
    · have hdq : d ≠ q := fun e => hne (by rw [hd, e])
      simp only [getAttributeAt_update_ne "break" g h q root d hdq]

theorem getAttributeAt_setAttribute_self (name value old : String) (q : Path) (root : Node)
    (hold : getAttributeAt root q name = some old) :
    getAttributeAt (modifyAt (setAttribute name value) q root) q name = some value := by
  unfold getAttributeAt at *
  rw [readAt_modifyAt_self]
  unfold readAt at *
  cases hn : getNode root q with
  | none => simp [hn] at hold
  | some m =>
    cases m with
    | text d => simp [hn, getAttribute] at hold
    | element e cs => simp [setAttribute, Node.update, getAttribute, getAttr_setAttr]

theorem entryDisabled_setAttribute (value old : String) (q : Path) (root : Node)
    (operation : Path)
    (hq : querySelector root operation (hasClass "disable-icon") = some q)
    (hold : getAttributeAt root q "disabled" = some old) :
    entryDisabled (modifyAt (setAttribute "disabled" value) q root) operation
      = decide (value = "true") := by
  unfold entryDisabled
  rw [setAttribute, querySelector_hasClass_update "disable-icon" id _ (keepsToken_id _), hq,
    ← setAttribute]
  simp [getAttributeAt_setAttribute_self "disabled" value old q root hold]

theorem entryBreakpoint_setAttribute (value old : String) (q : Path) (root : Node)
    (operation : Path)
    (hq : querySelector root operation (hasClass "breakpoint") = some q)
    (hold : getAttributeAt root q "break" = some old) :
    entryBreakpoint (modifyAt (setAttribute "break" value) q root) operation
      = decide (value = "true") := by
  unfold entryBreakpoint
  rw [setAttribute, querySelector_hasClass_update "breakpoint" id _ (keepsToken_id _), hq,
    ← setAttribute]
  simp [getAttributeAt_setAttribute_self "break" value old q root hold]

/-- The record of an entry after a rewrite that keeps the classes `getConfig` looks
at and the `type` attribute: name and arguments are as before, the flags are read
from the rewritten document. -/
theorem configItem_update (g : List String → List String)
    (h : List (String × String) → List (String × String)) (hg : KeepsConfigTokens g)
    (ht : KeepsAttr "type" h) (q : Path) (root : Node) (operation : Path) :
    configItem (modifyAt (Node.update g h) q root) operation =
      (configItem root operation).map (fun item =>
        { item with
          disabled := flagField (entryDisabled (modifyAt (Node.update g h) q root) operation),
          breakpoint :=
            flagField (entryBreakpoint (modifyAt (Node.update g h) q root) operation) }) := by
  rw [configItem_eq, configItem_eq, entryArguments_update g h hg, entryName_update g h hg,
    traverse_ingredientValue_update g h hg ht]
  cases traverse (ingredientValue root) (entryArguments root operation) with
  | none => rfl
  | some args =>
    cases entryName root operation with
    | none => rfl
    | some name => rfl

theorem configItem_map_self (root : Node) (operation : Path) :
    (configItem root operation).map (fun item =>
        { item with
          disabled := flagField (entryDisabled root operation),
          breakpoint := flagField (entryBreakpoint root operation) })
      = configItem root operation := by
  rw [configItem_eq]
  cases traverse (ingredientValue root) (entryArguments root operation) with
  | none => rfl
  | some args =>
    cases entryName root operation with
    | none => rfl
    | some name => rfl

/-- A rewrite that keeps the classes and the attributes `getConfig` looks at does not
change what `getConfig` returns. -/
theorem getConfig_update (g : List String → List String)
    (h : List (String × String) → List (String × String)) (hg : KeepsConfigTokens g)
    (ht : KeepsAttr "type" h) (hd : KeepsAttr "disabled" h) (hb : KeepsAttr "break" h)
    (q : Path) (root : Node) :
    getConfig (modifyAt (Node.update g h) q root) = getConfig root := by
  unfold getConfig
  rw [operations_update g h hg]
  apply traverse_congr
  intro operation _
  rw [configItem_update g h hg ht, entryDisabled_update g h hg q root operation (Or.inl hd),
    entryBreakpoint_update g h hg q root operation (Or.inl hb), configItem_map_self]

theorem keepsConfigTokens_tokenAdd (c : String)
    (hc : c ≠ "operation" ∧ c ≠ "disable-icon" ∧ c ≠ "breakpoint" ∧ c ≠ "arg" ∧
      c ≠ "arg-title" ∧ c ≠ "toggle-string") : KeepsConfigTokens (tokenAdd c) :=
  ⟨keepsToken_tokenAdd _ _ (Ne.symm hc.1), keepsToken_tokenAdd _ _ (Ne.symm hc.2.1),
    keepsToken_tokenAdd _ _ (Ne.symm hc.2.2.1), keepsToken_tokenAdd _ _ (Ne.symm hc.2.2.2.1),
    keepsToken_tokenAdd _ _ (Ne.symm hc.2.2.2.2.1),
    keepsToken_tokenAdd _ _ (Ne.symm hc.2.2.2.2.2)⟩

theorem keepsConfigTokens_tokenRemove (c : String)
    (hc : c ≠ "operation" ∧ c ≠ "disable-icon" ∧ c ≠ "breakpoint" ∧ c ≠ "arg" ∧
      c ≠ "arg-title" ∧ c ≠ "toggle-string") : KeepsConfigTokens (tokenRemove c) :=
  ⟨keepsToken_tokenRemove _ _ (Ne.symm hc.1), keepsToken_tokenRemove _ _ (Ne.symm hc.2.1),
    keepsToken_tokenRemove _ _ (Ne.symm hc.2.2.1), keepsToken_tokenRemove _ _ (Ne.symm hc.2.2.2.1),
    keepsToken_tokenRemove _ _ (Ne.symm hc.2.2.2.2.1),
    keepsToken_tokenRemove _ _ (Ne.symm hc.2.2.2.2.2)⟩

/-- Adding a class `getConfig` does not look at changes nothing of what it returns. -/
theorem getConfig_classListAdd (c : String)
    (hc : c ≠ "operation" ∧ c ≠ "disable-icon" ∧ c ≠ "breakpoint" ∧ c ≠ "arg" ∧
      c ≠ "arg-title" ∧ c ≠ "toggle-string") (q : Path) (root : Node) :
    getConfig (modifyAt (classListAdd c) q root) = getConfig root :=
  getConfig_update _ _ (keepsConfigTokens_tokenAdd c hc) (keepsAttr_id _) (keepsAttr_id _)
    (keepsAttr_id _) q root

/-- Removing a class `getConfig` does not look at changes nothing of what it returns. -/
theorem getConfig_classListRemove (c : String)
    (hc : c ≠ "operation" ∧ c ≠ "disable-icon" ∧ c ≠ "breakpoint" ∧ c ≠ "arg" ∧
      c ≠ "arg-title" ∧ c ≠ "toggle-string") (q : Path) (root : Node) :
    getConfig (modifyAt (classListRemove c) q root) = getConfig root :=
  getConfig_update _ _ (keepsConfigTokens_tokenRemove c hc) (keepsAttr_id _) (keepsAttr_id _)
    (keepsAttr_id _) q root

/-! ## Clicks on the breakpoint control and on the disable icon -/

theorem traverse_set {α β : Type} (f f' : α → Option β) (l : List α) (bs : List β)
    (h : traverse f l = some bs) (i : Nat) (a : α) (hi : l[i]? = some a) (b' : β)
    (hb' : f' a = some b')
    (hother : ∀ (k : Nat) (x : α), k ≠ i → l[k]? = some x → f' x = f x) :
    traverse f' l = some (bs.set i b') := by
  induction l generalizing i bs with
  | nil => simp at hi
  | cons x xs ih =>
    have hall := (traverse_eq_some_iff f (x :: xs) bs).mp h
    cases hall with
    | @cons _ b _ bs' h1 h2 =>
      have htail := (traverse_eq_some_iff f xs bs').mpr h2
      cases i with
      | zero =>
        simp only [List.getElem?_cons_zero, Option.some.injEq] at hi
        subst hi
        have hxs : traverse f' xs = traverse f xs := by
          apply traverse_congr
          intro y hy
          obtain ⟨k, hk⟩ := List.getElem?_of_mem hy
          exact hother (k + 1) y (by omega) (by simpa using hk)
        simp [traverse, hb', hxs, htail]
      | succ i =>
        simp only [List.getElem?_cons_succ] at hi
        have hx : f' x = f x := hother 0 x (by omega) (by simp)
        have hrest := ih bs' htail i hi
          (fun k y hk hy => hother (k + 1) y (by omega) (by simpa using hy))
        simp [traverse, hx, h1, hrest]

theorem setAttribute_keepsType (name value : String) (hne : "type" ≠ name) :
    KeepsAttr "type" (setAttr name value) :=
  keepsAttr_setAttr "type" name value hne

/-- What `getConfig` returns after `setAttribute("break", value)` on the breakpoint
control of the entry at index `i`, when no other entry shares that control. -/
theorem getConfig_setAttribute_break (root : Node) (cfg : List RecipeItem) (i : Nat)
    (operation target : Path) (value old : String)
    (hcfg : getConfig root = some cfg)
    (hop : (operations root)[i]? = some operation)
    (hq : querySelector root operation (hasClass "breakpoint") = some target)
    (hother : ∀ (k : Nat) (other : Path), k ≠ i → (operations root)[k]? = some other →
      querySelector root other (hasClass "breakpoint") ≠ some target)
    (hold : getAttributeAt root target "break" = some old) :
    ∃ item : RecipeItem, cfg[i]? = some item ∧
      item.breakpoint = flagField (decide (old = "true")) ∧
      getConfig (modifyAt (setAttribute "break" value) target root)
        = some (cfg.set i { item with breakpoint := flagField (decide (value = "true")) }) := by
  obtain ⟨item, hitem, hconf⟩ := getConfig_getElem? root cfg hcfg i operation hop
  obtain ⟨_, _, hdis, hbp⟩ := configItem_some root operation item hconf
  have hflag : entryBreakpoint root operation = decide (old = "true") := by
    simp [entryBreakpoint, hq, hold]
  refine ⟨item, hitem, by rw [hbp, hflag], ?_⟩
  have hg := keepsConfigTokens_id
  have ht := setAttribute_keepsType "break" value (by decide)
  have hd : KeepsAttr "disabled" (setAttr "break" value) :=
    keepsAttr_setAttr "disabled" "break" value (by decide)
  unfold getConfig
  rw [setAttribute, operations_update id _ hg]
  apply traverse_set (configItem root) _ (operations root) cfg hcfg i operation hop
  · rw [configItem_update id _ hg ht, entryDisabled_update id _ hg _ _ _ (Or.inl hd),
      ← setAttribute, entryBreakpoint_setAttribute value old target root operation hq hold,
      hconf, ← hdis]
    rfl
  · intro k other hk hother'
    rw [configItem_update id _ hg ht, entryDisabled_update id _ hg _ _ _ (Or.inl hd),
      entryBreakpoint_update id _ hg _ _ _ (Or.inr (hother k other hk hother')),
      configItem_map_self]

/-- What `getConfig` returns after `setAttribute("disabled", value)` on the disable
icon of the entry at index `i`, when no other entry shares that icon. -/
theorem getConfig_setAttribute_disabled (root : Node) (cfg : List RecipeItem) (i : Nat)
    (operation target : Path) (value old : String)
    (hcfg : getConfig root = some cfg)
    (hop : (operations root)[i]? = some operation)
    (hq : querySelector root operation (hasClass "disable-icon") = some target)
    (hother : ∀ (k : Nat) (other : Path), k ≠ i → (operations root)[k]? = some other →
      querySelector root other (hasClass "disable-icon") ≠ some target)
    (hold : getAttributeAt root target "disabled" = some old) :
    ∃ item : RecipeItem, cfg[i]? = some item ∧
      item.disabled = flagField (decide (old = "true")) ∧
      getConfig (modifyAt (setAttribute "disabled" value) target root)
        = some (cfg.set i { item with disabled := flagField (decide (value = "true")) }) := by
  obtain ⟨item, hitem, hconf⟩ := getConfig_getElem? root cfg hcfg i operation hop
  obtain ⟨_, _, hdis, hbp⟩ := configItem_some root operation item hconf
  have hflag : entryDisabled root operation = decide (old = "true") := by
    simp [entryDisabled, hq, hold]
  refine ⟨item, hitem, by rw [hdis, hflag], ?_⟩
  have hg := keepsConfigTokens_id
  have ht := setAttribute_keepsType "disabled" value (by decide)
  have hb : KeepsAttr "break" (setAttr "disabled" value) :=
    keepsAttr_setAttr "break" "disabled" value (by decide)
  unfold getConfig
  rw [setAttribute, operations_update id _ hg]
  apply traverse_set (configItem root) _ (operations root) cfg hcfg i operation hop
  · rw [configItem_update id _ hg ht, entryBreakpoint_update id _ hg _ _ _ (Or.inl hb),
      ← setAttribute, entryDisabled_setAttribute value old target root operation hq hold,
      hconf, ← hbp]
    rfl
  · intro k other hk hother'
    rw [configItem_update id _ hg ht, entryBreakpoint_update id _ hg _ _ _ (Or.inl hb),
      entryDisabled_update id _ hg _ _ _ (Or.inr (hother k other hk hother')),
      configItem_map_self]

theorem breakpointClick_recList (s : Waiter) (bp : Path) :
    (breakpointClick s bp).recList =
      if getAttributeAt s.recList bp "break" = some "false" then
        modifyAt (classListAdd "breakpoint-selected") bp
          (modifyAt (setAttribute "break" "true") bp s.recList)
      else
        modifyAt (classListRemove "breakpoint-selected") bp
          (modifyAt (setAttribute "break" "false") bp s.recList) := rfl

theorem disableClick_recList (s : Waiter) (icon : Path) :
    (disableClick s icon).recList =
      if getAttributeAt s.recList icon "disabled" = some "false" then
        match (parentNode icon).bind parentNode with
        | some g =>
          modifyAt (classListAdd "disabled") g
            (modifyAt (classListAdd "disable-icon-selected") icon
              (modifyAt (setAttribute "disabled" "true") icon s.recList))
        | none =>
          modifyAt (classListAdd "disable-icon-selected") icon
            (modifyAt (setAttribute "disabled" "true") icon s.recList)
      else
        match (parentNode icon).bind parentNode with
        | some g =>
          modifyAt (classListRemove "disabled") g
            (modifyAt (classListRemove "disable-icon-selected") icon
              (modifyAt (setAttribute "disabled" "false") icon s.recList))
        | none =>
          modifyAt (classListRemove "disable-icon-selected") icon
            (modifyAt (setAttribute "disabled" "false") icon s.recList) := rfl

theorem getConfig_breakpointClick (s : Waiter) (bp : Path) :
    getConfig (breakpointClick s bp).recList =
      getConfig (modifyAt (setAttribute "break"
        (if getAttributeAt s.recList bp "break" = some "false" then "true" else "false"))
        bp s.recList) := by
  rw [breakpointClick_recList]
  split
  · rw [getConfig_classListAdd _ (by decide)]
  · rw [getConfig_classListRemove _ (by decide)]

theorem getConfig_disableClick (s : Waiter) (icon : Path) :
    getConfig (disableClick s icon).recList =
      getConfig (modifyAt (setAttribute "disabled"
        (if getAttributeAt s.recList icon "disabled" = some "false" then "true" else "false"))
        icon s.recList) := by
  rw [disableClick_recList]
  split
  · cases (parentNode icon).bind parentNode with
    | none => simp only [getConfig_classListAdd "disable-icon-selected" (by decide)]
    | some g =>
      simp only [getConfig_classListAdd "disabled" (by decide),
        getConfig_classListAdd "disable-icon-selected" (by decide)]
  · cases (parentNode icon).bind parentNode with
    | none => simp only [getConfig_classListRemove "disable-icon-selected" (by decide)]
    | some g =>
      simp only [getConfig_classListRemove "disabled" (by decide),
        getConfig_classListRemove "disable-icon-selected" (by decide)]

theorem flagField_flip (old : String) (h : old = "true" ∨ old = "false") :
    flagField (decide ((if old = "false" then "true" else "false") = "true"))
      = if flagField (decide (old = "true")) = none then some true else none := by
  rcases h with rfl | rfl <;> decide

/-- C6. A click on the breakpoint control (respectively the disable icon) of the entry
at index `i` flips only that flag of that entry: `getConfig` afterwards returns the
configuration it returned before with the record at index `i` replaced, so length and
order are the same and every other record is unchanged, and the new record has the
same `op`, the same `args` and the same other flag, its `breakpoint` (respectively
`disabled`) field being present exactly when it was absent before.  The control is
the one `getConfig` reads for the entry, it belongs to no other entry, and its
`break` (respectively `disabled`) attribute holds `"true"` or `"false"`. -/
theorem click_flips_only_its_flag (s : Waiter) (cfg : List RecipeItem) (i : Nat)
    (operation target : Path)
    (hcfg : getConfig s.recList = some cfg)
    (hop : (operations s.recList)[i]? = some operation) :
    (querySelector s.recList operation (hasClass "breakpoint") = some target →
      (∀ other ∈ (operations s.recList).eraseIdx i,
        querySelector s.recList other (hasClass "breakpoint") ≠ some target) →
      (getAttributeAt s.recList target "break" = some "true" ∨
        getAttributeAt s.recList target "break" = some "false") →
      ∃ item item' : RecipeItem, cfg[i]? = some item ∧
        getConfig (breakpointClick s target).recList = some (cfg.set i item') ∧
        (cfg.set i item').length = cfg.length ∧
        (∀ k : Nat, k ≠ i → (cfg.set i item')[k]? = cfg[k]?) ∧
        (cfg.set i item')[i]? = some item' ∧
        item'.op = item.op ∧ item'.args = item.args ∧ item'.disabled = item.disabled ∧
        item'.breakpoint = (if item.breakpoint = none then some true else none)) ∧
    (querySelector s.recList operation (hasClass "disable-icon") = some target →
      (∀ other ∈ (operations s.recList).eraseIdx i,
        querySelector s.recList other (hasClass "disable-icon") ≠ some target) →
      (getAttributeAt s.recList target "disabled" = some "true" ∨
        getAttributeAt s.recList target "disabled" = some "false") →
      ∃ item item' : RecipeItem, cfg[i]? = some item ∧
        getConfig (disableClick s target).recList = some (cfg.set i item') ∧
        (cfg.set i item').length = cfg.length ∧
        (∀ k : Nat, k ≠ i → (cfg.set i item')[k]? = cfg[k]?) ∧
        (cfg.set i item')[i]? = some item' ∧
        item'.op = item.op ∧ item'.args = item.args ∧ item'.breakpoint = item.breakpoint ∧
        item'.disabled = (if item.disabled = none then some true else none)) := by
  have hlt : i < cfg.length := by
    obtain ⟨item, hitem, _⟩ := getConfig_getElem? s.recList cfg hcfg i operation hop
    by_contra hge
    rw [List.getElem?_eq_none (by omega)] at hitem
    simp at hitem
  constructor
  · intro hq hother hattr
    obtain ⟨old, hold, holdtf⟩ : ∃ old, getAttributeAt s.recList target "break" = some old ∧
        (old = "true" ∨ old = "false") := by
      rcases hattr with h | h
      · exact ⟨_, h, Or.inl rfl⟩
      · exact ⟨_, h, Or.inr rfl⟩
    have hother' : ∀ (k : Nat) (other : Path), k ≠ i → (operations s.recList)[k]? = some other →
        querySelector s.recList other (hasClass "breakpoint") ≠ some target :=
      fun k other hk hget => hother other (List.mem_eraseIdx_iff_getElem?.mpr ⟨k, hk, hget⟩)
    obtain ⟨item, hitem, hbp, hnew⟩ := getConfig_setAttribute_break s.recList cfg i operation
      target (if old = "false" then "true" else "false") old hcfg hop hq hother' hold
    refine ⟨item, RecipeItem.mk item.op item.args item.disabled
        (flagField (decide ((if old = "false" then "true" else "false") = "true"))), hitem, ?_, by simp, fun k hk => by simp [List.getElem?_set_ne (Ne.symm hk)],
      by simp [List.getElem?_set_self hlt], rfl, rfl, rfl, ?_⟩
    · rw [getConfig_breakpointClick, hold]
      simpa using hnew
    · simp only [hbp]
      exact flagField_flip old holdtf
  · intro hq hother hattr
    obtain ⟨old, hold, holdtf⟩ : ∃ old, getAttributeAt s.recList target "disabled" = some old ∧
        (old = "true" ∨ old = "false") := by
      rcases hattr with h | h
      · exact ⟨_, h, Or.inl rfl⟩
      · exact ⟨_, h, Or.inr rfl⟩
    have hother' : ∀ (k : Nat) (other : Path), k ≠ i → (operations s.recList)[k]? = some other →
        querySelector s.recList other (hasClass "disable-icon") ≠ some target :=
      fun k other hk hget => hother other (List.mem_eraseIdx_iff_getElem?.mpr ⟨k, hk, hget⟩)
    obtain ⟨item, hitem, hdis, hnew⟩ := getConfig_setAttribute_disabled s.recList cfg i operation
      target (if old = "false" then "true" else "false") old hcfg hop hq hother' hold
    refine ⟨item, RecipeItem.mk item.op item.args
        (flagField (decide ((if old = "false" then "true" else "false") = "true")))
        item.breakpoint, hitem, ?_, by simp, fun k hk => by simp [List.getElem?_set_ne (Ne.symm hk)],
      by simp [List.getElem?_set_self hlt], rfl, rfl, rfl, ?_⟩
    · rw [getConfig_disableClick, hold]
      simpa using hnew
    · simp only [hdis]
      exact flagField_flip old holdtf

/-- C6, witness: a click on the breakpoint of `Base64` (entry 0) and a click on the
disable icon of `MD5` (entry 1) in the recipe `Base64`, `MD5`. -/
theorem click_flips_only_its_flag_witness :
    (∃ item item' : RecipeItem,
      [(⟨"Base64", [.str "A-Za-z0-9+/="], none, none⟩ : RecipeItem),
          ⟨"MD5", [], none, none⟩][0]? = some item ∧
        getConfig (breakpointClick exampleWaiter [0, 2, 0]).recList
          = some ([(⟨"Base64", [.str "A-Za-z0-9+/="], none, none⟩ : RecipeItem),
              ⟨"MD5", [], none, none⟩].set 0 item') ∧
        ([(⟨"Base64", [.str "A-Za-z0-9+/="], none, none⟩ : RecipeItem),
            ⟨"MD5", [], none, none⟩].set 0 item').length
          = [(⟨"Base64", [.str "A-Za-z0-9+/="], none, none⟩ : RecipeItem),
              ⟨"MD5", [], none, none⟩].length ∧
        (∀ k : Nat, k ≠ 0 →
          ([(⟨"Base64", [.str "A-Za-z0-9+/="], none, none⟩ : RecipeItem),
              ⟨"MD5", [], none, none⟩].set 0 item')[k]?
            = [(⟨"Base64", [.str "A-Za-z0-9+/="], none, none⟩ : RecipeItem),
                ⟨"MD5", [], none, none⟩][k]?) ∧
        ([(⟨"Base64", [.str "A-Za-z0-9+/="], none, none⟩ : RecipeItem),
            ⟨"MD5", [], none, none⟩].set 0 item')[0]? = some item' ∧
        item'.op = item.op ∧ item'.args = item.args ∧ item'.disabled = item.disabled ∧
        item'.breakpoint = (if item.breakpoint = none then some true else none)) ∧
    (∃ item item' : RecipeItem,
      [(⟨"Base64", [.str "A-Za-z0-9+/="], none, none⟩ : RecipeItem),
          ⟨"MD5", [], none, none⟩][1]? = some item ∧
        getConfig (disableClick exampleWaiter [1, 1, 1]).recList
          = some ([(⟨"Base64", [.str "A-Za-z0-9+/="], none, none⟩ : RecipeItem),
              ⟨"MD5", [], none, none⟩].set 1 item') ∧
        ([(⟨"Base64", [.str "A-Za-z0-9+/="], none, none⟩ : RecipeItem),
            ⟨"MD5", [], none, none⟩].set 1 item').length
          = [(⟨"Base64", [.str "A-Za-z0-9+/="], none, none⟩ : RecipeItem),
              ⟨"MD5", [], none, none⟩].length ∧
        (∀ k : Nat, k ≠ 1 →
          ([(⟨"Base64", [.str "A-Za-z0-9+/="], none, none⟩ : RecipeItem),
              ⟨"MD5", [], none, none⟩].set 1 item')[k]?
            = [(⟨"Base64", [.str "A-Za-z0-9+/="], none, none⟩ : RecipeItem),
                ⟨"MD5", [], none, none⟩][k]?) ∧
        ([(⟨"Base64", [.str "A-Za-z0-9+/="], none, none⟩ : RecipeItem),
            ⟨"MD5", [], none, none⟩].set 1 item')[1]? = some item' ∧
        item'.op = item.op ∧ item'.args = item.args ∧ item'.breakpoint = item.breakpoint ∧
        item'.disabled = (if item.disabled = none then some true else none)) :=
  ⟨(click_flips_only_its_flag exampleWaiter _ 0 [0] [0, 2, 0] (by decide) (by decide)).1
      (by decide) (by decide) (by decide),
    (click_flips_only_its_flag exampleWaiter _ 1 [1] [1, 1, 1] (by decide) (by decide)).2
      (by decide) (by decide) (by decide)⟩

/-! ## Reads after a rewrite that replaces children -/

theorem mem_select_iff (sel : Node → Bool) (n : Node) (p : Path) :
    p ∈ select sel n ↔ p ≠ [] ∧ ∃ m, getNode n p = some m ∧ sel m = true := by
  constructor
  · intro h
    exact ⟨select_ne_nil sel n p h, select_valid sel n p h⟩
  · rintro ⟨hne, m, hm, hs⟩
    induction p generalizing n with
    | nil => exact absurd rfl hne
    | cons x p ih =>
      rw [mem_select]
      simp only [getNode] at hm
      cases hc : n.childNodes[x]? with
      | none => simp [hc] at hm
      | some c =>
        simp only [hc] at hm
        refine ⟨x, c, p, hc, rfl, ?_⟩
        cases p with
        | nil =>
          simp only [getNode, Option.some.injEq] at hm
          subst hm
          exact Or.inl ⟨rfl, hs⟩
        | cons y p => exact Or.inr (ih c (by simp) hm)

/-- A node that matches a selector none of the descendants of the node at `q`
matches does not lie strictly below `q`. -/
theorem not_strictlyBelow_of_select (sel : Node → Bool) (root : Node) (p q : Path)
    (m b : Node) (hm : getNode root p = some m) (hs : sel m = true)
    (hb : getNode root q = some b) (hnone : select sel b = []) : ¬ StrictlyBelow p q := by
  rintro ⟨r, hr, rfl⟩
  rw [getNode_append, hb] at hm
  have : r ∈ select sel b := (mem_select_iff sel b r).mpr ⟨hr, m, hm, hs⟩
  simp [hnone] at this

theorem hf_of_not_strictlyBelow (f : Node → Node) (p q : Path) (h : ¬ StrictlyBelow p q) :
    ∀ r, r ≠ [] → p = q ++ r → ∀ m, getNode (f m) r = getNode m r :=
  fun r hr hp => absurd ⟨r, hr, hp⟩ h

theorem readAt_modifyAt_notBelow {α : Type} (obs : Node → α) (d : α) (hown : OwnData obs)
    (f : Node → Node) (hf : ∀ m, obs (f m) = obs m) (q : Path) (root : Node) (p : Path)
    (hnb : ¬ StrictlyBelow p q) :
    readAt obs d (modifyAt f q root) p = readAt obs d root p :=
  readAt_modifyAt obs d hown f q root p (hf_of_not_strictlyBelow f p q hnb) (fun _ m => hf m)

theorem querySelectorAll_modifyAt_notBelow (sel : Node → Bool) (hown : OwnData sel)
    (f : Node → Node) (hsel : ∀ m, sel (f m) = sel m) (q : Path) (root : Node) (base : Path)
    (hnb : ¬ StrictlyBelow base q)
    (hnode : ∀ m, getNode root q = some m → select sel (f m) = select sel m) :
    querySelectorAll (modifyAt f q root) base sel = querySelectorAll root base sel := by
  rw [querySelectorAll_eq_readAt, querySelectorAll_eq_readAt]
  apply readAt_modifyAt_of _ _ _ _ _ _ (hf_of_not_strictlyBelow f base q hnb)
  intro m r hr hbase
  rw [select_modifyAt sel hown f hsel r m]
  intro m' hm'
  apply hnode
  rw [← hr, getNode_append, hbase]
  exact hm'

theorem not_strictlyBelow_nil (q : Path) : ¬ StrictlyBelow [] q := by
  rintro ⟨r, hr, h⟩
  have := congrArg List.length h
  simp only [List.length_nil, List.length_append] at this
  exact hr (List.length_eq_zero.mp (by omega))

theorem previousSibling_eq_some (p sib : Path) (h : previousSibling p = some sib) :
    ∃ parent k, p = parent ++ [k + 1] ∧ sib = parent ++ [k] := by
  unfold previousSibling at h
  cases hl : p.getLast? with
  | none => simp [hl] at h
  | some x =>
    cases x with
    | zero => simp [hl] at h
    | succ k =>
      simp only [hl, Option.some.injEq] at h
      refine ⟨p.dropLast, k, ?_, h.symm⟩
      have hne : p ≠ [] := by
        intro e
        simp [e] at hl
      have h2 := List.dropLast_append_getLast hne
      rw [List.getLast?_eq_getLast _ hne] at hl
      simp only [Option.some.injEq] at hl
      rw [hl] at h2
      exact h2.symm

/-- The previous sibling of a node that is not strictly below `q` is not strictly
below `q` either. -/
theorem not_strictlyBelow_previousSibling (p sib q : Path)
    (h : previousSibling p = some sib) (hnb : ¬ StrictlyBelow p q) : ¬ StrictlyBelow sib q := by
  obtain ⟨parent, k, rfl, rfl⟩ := previousSibling_eq_some p sib h
  rintro ⟨r, hr, hsib⟩
  apply hnb
  have h1 := congrArg List.dropLast hsib
  rw [List.dropLast_concat, List.dropLast_append_of_ne_nil _ hr] at h1
  exact ⟨r.dropLast ++ [k + 1], by simp, by rw [h1, List.append_assoc]⟩

theorem own_setChildNodes {α : Type} (obs : Node → α) (hown : OwnData obs) (new : List Node)
    (m : Node) : obs (setChildNodes new m) = obs m := by
  cases m with
  | text d => rfl
  | element e cs => exact hown e new cs

theorem querySelectorAll_valid (root : Node) (base : Path) (sel : Node → Bool) (p : Path)
    (h : p ∈ querySelectorAll root base sel) : ∃ m, getNode root p = some m ∧ sel m = true := by
  unfold querySelectorAll at h
  cases hb : getNode root base with
  | none => simp [hb] at h
  | some n =>
    simp only [hb, List.mem_map] at h
    obtain ⟨x, hx, rfl⟩ := h
    obtain ⟨m, hm, hs⟩ := select_valid sel n x hx
    exact ⟨m, by rw [getNode_append, hb]; exact hm, hs⟩

theorem querySelector_mem (root : Node) (base : Path) (sel : Node → Bool) (p : Path)
    (h : querySelector root base sel = some p) : p ∈ querySelectorAll root base sel := by
  unfold querySelector at h
  exact List.mem_of_mem_head? h

theorem firstElementIndex_some (cs : List Node) (c : Nat) (h : firstElementIndex cs = some c) :
    ∃ n, cs[c]? = some n ∧ n.isElement = true := by
  induction cs generalizing c with
  | nil => simp [firstElementIndex] at h
  | cons x xs ih =>
    simp only [firstElementIndex] at h
    by_cases hx : x.isElement = true
    · simp only [hx, if_true, Option.some.injEq] at h
      subst h
      exact ⟨x, by simp, hx⟩
    · simp only [hx] at h
      cases hxs : firstElementIndex xs with
      | none => simp [hxs] at h
      | some k =>
        simp only [hxs, Option.map_some', Bool.false_eq_true, if_false, Option.some.injEq] at h
        subst h
        obtain ⟨n, hn, hne⟩ := ih k hxs
        exact ⟨n, by simpa using hn, hne⟩

/-- The first element child that `firstElementChild` returns exists and is an element. -/
theorem firstElementChild_some (root : Node) (p child : Path)
    (h : firstElementChild root p = some child) :
    ∃ c e cs, child = p ++ [c] ∧ getNode root child = some (.element e cs) ∧
      readAt Node.firstElementChildIndex none root p = some c := by
  unfold firstElementChild at h
  cases hr : readAt Node.firstElementChildIndex none root p with
  | none => simp [hr] at h
  | some c =>
    simp only [hr, Option.map_some', Option.some.injEq] at h
    unfold readAt at hr
    cases hn : getNode root p with
    | none => simp [hn] at hr
    | some m =>
      simp only [hn] at hr
      cases m with
      | text d => simp [Node.firstElementChildIndex] at hr
      | element e0 cs0 =>
        simp only [Node.firstElementChildIndex] at hr
        obtain ⟨n, hnc, hne⟩ := firstElementIndex_some cs0 c hr
        cases n with
        | text d => simp [Node.isElement] at hne
        | element e cs =>
          refine ⟨c, e, cs, h.symm, ?_, ?_⟩
          · rw [← h, getNode_append, hn]
            simp [getNode, Node.childNodes, hnc]
          · simp [readAt, hn, Node.firstElementChildIndex, hr]

theorem sliceDropLast_append_space (t : String) : sliceDropLast (t ++ " ") = t := by
  unfold sliceDropLast
  have h : (t ++ " ").data = t.data ++ [' '] := by
    rw [String.data_append]
  rw [h, List.dropLast_concat]

theorem traverse_mem_some {α β : Type} (f : α → Option β) (l : List α) (bs : List β)
    (h : traverse f l = some bs) (a : α) (ha : a ∈ l) : ∃ b, f a = some b := by
  obtain ⟨i, hi⟩ := List.getElem?_of_mem ha
  obtain ⟨b, _, hb⟩ := traverse_getElem? f l bs h i a hi
  exact ⟨b, hb⟩

/-! ## `getConfig` after the label of a toggle-string button is replaced -/

theorem select_setChildNodes (sel : Node → Bool) (new : List Node) (b : Node)
    (hb : b.isElement = true) : select sel (setChildNodes new b) = selectList sel 0 new := by
  cases b with
  | text d => simp [Node.isElement] at hb
  | element e cs => rfl

theorem Relabel.hnode {root : Node} {button : Path} {b : Node} {new : List Node}
    (h : Relabel root button b new) (sel : Node → Bool) (hold : select sel b = [])
    (hnew : selectList sel 0 new = []) :
    ∀ m, getNode root button = some m → select sel (setChildNodes new m) = select sel m := by
  intro m hm
  rw [h.node] at hm
  simp only [Option.some.injEq] at hm
  subst hm
  rw [select_setChildNodes sel new b h.isElement, hold, hnew]

theorem Relabel.operations_eq {root : Node} {button : Path} {b : Node} {new : List Node}
    (h : Relabel root button b new) :
    operations (modifyAt (setChildNodes new) button root) = operations root :=
  querySelectorAll_modifyAt_notBelow liOperation ownData_liOperation _
    (own_setChildNodes liOperation ownData_liOperation new) button root []
    (not_strictlyBelow_nil button) (h.hnode liOperation h.oldOperation h.newOperation)

theorem Relabel.operation_notBelow {root : Node} {button : Path} {b : Node} {new : List Node}
    (h : Relabel root button b new) (operation : Path) (hop : operation ∈ operations root) :
    ¬ StrictlyBelow operation button := by
  obtain ⟨m, hm, hs⟩ := querySelectorAll_valid root [] liOperation operation hop
  exact not_strictlyBelow_of_select liOperation root operation button m b hm hs h.node
    h.oldOperation

theorem Relabel.entryArguments_eq {root : Node} {button : Path} {b : Node} {new : List Node}
    (h : Relabel root button b new) (operation : Path) (hop : operation ∈ operations root) :
    entryArguments (modifyAt (setChildNodes new) button root) operation
      = entryArguments root operation :=
  querySelectorAll_modifyAt_notBelow (hasClass "arg") (ownData_hasClass "arg") _
    (own_setChildNodes _ (ownData_hasClass "arg") new) button root operation
    (h.operation_notBelow operation hop) (h.hnode _ h.oldArg h.newArg)

theorem Relabel.title_eq {root : Node} {button : Path} {b : Node} {new : List Node}
    (h : Relabel root button b new) (operation : Path) (hop : operation ∈ operations root) :
    querySelector (modifyAt (setChildNodes new) button root) operation (hasClass "arg-title")
      = querySelector root operation (hasClass "arg-title") := by
  unfold querySelector
  rw [querySelectorAll_modifyAt_notBelow (hasClass "arg-title") (ownData_hasClass "arg-title") _
    (own_setChildNodes _ (ownData_hasClass "arg-title") new) button root operation
    (h.operation_notBelow operation hop) (h.hnode _ h.oldTitle h.newTitle)]

theorem Relabel.arg_notBelow {root : Node} {button : Path} {b : Node} {new : List Node}
    (h : Relabel root button b new) (operation ing : Path)
    (hing : ing ∈ entryArguments root operation) : ¬ StrictlyBelow ing button := by
  obtain ⟨m, hm, hs⟩ := querySelectorAll_valid root operation (hasClass "arg") ing hing
  exact not_strictlyBelow_of_select (hasClass "arg") root ing button m b hm hs h.node h.oldArg

theorem argKind_setChildNodes (root : Node) (button : Path) (new : List Node) (ing : Path)
    (hnb : ¬ StrictlyBelow ing button) :
    argKind (modifyAt (setChildNodes new) button root) ing = argKind root ing := by
  unfold argKind getAttributeAt classContainsAt
  rw [readAt_modifyAt_notBelow _ _ (ownData_getAttribute "type") _
      (own_setChildNodes _ (ownData_getAttribute "type") new) button root ing hnb,
    readAt_modifyAt_notBelow _ _ (ownData_hasClass "toggle-string") _
      (own_setChildNodes _ (ownData_hasClass "toggle-string") new) button root ing hnb]

theorem valueAt_setChildNodes (root : Node) (button : Path) (new : List Node) (ing : Path)
    (hnb : ¬ StrictlyBelow ing button) :
    valueAt (modifyAt (setChildNodes new) button root) ing = valueAt root ing :=
  readAt_modifyAt_notBelow _ _ ownData_value _ (own_setChildNodes _ ownData_value new)
    button root ing hnb

theorem isElement_setChildNodes (new : List Node) (m : Node) :
    (setChildNodes new m).isElement = m.isElement :=
  own_setChildNodes _ ownData_isElement new m

/-- Replacing children by a list that holds an element does not take the first
element child away from a node that had one and is not strictly below the rewrite. -/
theorem firstElementChild_isSome_setChildNodes (root : Node) (button : Path) (new : List Node)
    (hnew : (firstElementIndex new).isSome = true) (p : Path) (hnb : ¬ StrictlyBelow p button)
    (h : (firstElementChild root p).isSome = true) :
    (firstElementChild (modifyAt (setChildNodes new) button root) p).isSome = true := by
  unfold firstElementChild readAt at *
  rw [getNode_modifyAt _ button root p (hf_of_not_strictlyBelow _ p button hnb)]
  cases hn : getNode root p with
  | none => simp [hn] at h
  | some m =>
    simp only [hn, Option.isSome_map'] at h
    simp only [Option.map_some', Option.isSome_map']
    by_cases hc : button.take p.length = p
    · simp only [hc, if_true]
      cases hd : button.drop p.length with
      | nil =>
        cases m with
        | text d => simp [Node.firstElementChildIndex] at h
        | element e cs => simpa [modifyAt, setChildNodes, Node.firstElementChildIndex] using hnew
      | cons k r =>
        rw [firstElementChildIndex_modifyAt_cons _ (isElement_setChildNodes new) k r m]
        exact h
    · simpa [hc] using h

/-- The first element child of a node strictly above the rewrite stays the same. -/
theorem firstElementChild_setChildNodes_above (root : Node) (new : List Node) (p : Path)
    (c : Nat) :
    firstElementChild (modifyAt (setChildNodes new) (p ++ [c]) root) p
      = firstElementChild root p := by
  unfold firstElementChild
  congr 1
  apply readAt_modifyAt_of
  · intro r hr hp
    have := congrArg List.length hp
    simp only [List.length_append, List.length_singleton] at this
    exact absurd (List.length_eq_zero.mp (by omega)) hr
  · intro m r hr _
    have hrc : r = [c] := List.append_cancel_left hr
    subst hrc
    exact firstElementChildIndex_modifyAt_cons _ (isElement_setChildNodes new) c [] m

theorem textContentAt_setChildNodes_self (root : Node) (button : Path) (new : List Node)
    (b : Node) (hb : getNode root button = some b) (hel : b.isElement = true) :
    textContentAt (modifyAt (setChildNodes new) button root) button = textContentList new := by
  unfold textContentAt
  rw [readAt_modifyAt_self]
  cases b with
  | text d => simp [Node.isElement] at hel
  | element e cs => simp [readAt, hb, setChildNodes, textContent]

theorem toggleButton_eq_some (root : Node) (ing button : Path)
    (h : toggleButton root ing = some button) :
    ∃ sib, previousSibling ing = some sib ∧ firstElementChild root sib = some button := by
  unfold toggleButton at h
  cases hs : previousSibling ing with
  | none => simp [hs] at h
  | some sib => exact ⟨sib, rfl, by simpa [hs] using h⟩

theorem Relabel.ingredientValue_exists {root : Node} {button : Path} {b : Node}
    {new : List Node} (h : Relabel root button b new) (operation ing : Path)
    (hing : ing ∈ entryArguments root operation) (v : ArgValue)
    (hv : ingredientValue root ing = some v) :
    ∃ v', ingredientValue (modifyAt (setChildNodes new) button root) ing = some v' := by
  have hnb := h.arg_notBelow operation ing hing
  have hk := argKind_setChildNodes root button new ing hnb
  cases hkind : argKind root ing with
  | checkbox => exact ⟨_, ingredientValue_checkbox _ ing (by rw [hk, hkind])⟩
  | other => exact ⟨_, ingredientValue_other _ ing (by rw [hk, hkind])⟩
  | toggleString =>
    rw [ingredientValue_toggleString root ing hkind] at hv
    rw [ingredientValue_toggleString _ ing (by rw [hk, hkind])]
    cases hb : toggleButton root ing with
    | none => simp [hb] at hv
    | some btn =>
      obtain ⟨sib, hsib, hfirst⟩ := toggleButton_eq_some root ing btn hb
      have hsome := firstElementChild_isSome_setChildNodes root button new h.newElement sib
        (not_strictlyBelow_previousSibling ing sib button hsib hnb) (by simp [hfirst])
      unfold toggleButton
      rw [hsib]
      simp only [Option.some_bind]
      cases hf : firstElementChild (modifyAt (setChildNodes new) button root) sib with
      | none => simp [hf] at hsome
      | some btn' => exact ⟨_, rfl⟩

theorem Relabel.configItem_exists {root : Node} {button : Path} {b : Node}
    {new : List Node} (h : Relabel root button b new) (operation : Path)
    (hop : operation ∈ operations root) (item : RecipeItem)
    (hitem : configItem root operation = some item) :
    ∃ item', configItem (modifyAt (setChildNodes new) button root) operation = some item' := by
  obtain ⟨hname, hargs, _, _⟩ := configItem_some root operation item hitem
  have hargs' : ∃ args', traverse (ingredientValue (modifyAt (setChildNodes new) button root))
      (entryArguments root operation) = some args' := by
    apply traverse_exists
    intro ing hing
    obtain ⟨v, hv⟩ := traverse_mem_some _ _ _ hargs ing hing
    exact h.ingredientValue_exists operation ing hing v hv
  obtain ⟨args', hargs'⟩ := hargs'
  have hname' : ∃ name', entryName (modifyAt (setChildNodes new) button root) operation
      = some name' := by
    unfold entryName at *
    rw [h.title_eq operation hop]
    cases hq : querySelector root operation (hasClass "arg-title") with
    | none => simp [hq] at hname
    | some title => exact ⟨_, rfl⟩
  obtain ⟨name', hname'⟩ := hname'
  rw [configItem_eq, h.entryArguments_eq operation hop, hargs', hname']
  exact ⟨_, rfl⟩

/-- After the children of a label-only button are replaced, `getConfig` still returns
a configuration, with one record per entry as before. -/
theorem Relabel.getConfig_exists {root : Node} {button : Path} {b : Node}
    {new : List Node} (h : Relabel root button b new) (cfg : List RecipeItem)
    (hcfg : getConfig root = some cfg) :
    ∃ cfg', getConfig (modifyAt (setChildNodes new) button root) = some cfg' ∧
      cfg'.length = cfg.length := by
  have hex : ∃ cfg', getConfig (modifyAt (setChildNodes new) button root) = some cfg' := by
    unfold getConfig
    rw [h.operations_eq]
    apply traverse_exists
    intro operation hop
    obtain ⟨item, hitem⟩ := traverse_mem_some _ _ _ hcfg operation hop
    exact h.configItem_exists operation hop item hitem
  obtain ⟨cfg', hcfg'⟩ := hex
  refine ⟨cfg', hcfg', ?_⟩
  have h1 := traverse_length _ _ _ hcfg'
  have h2 := traverse_length _ _ _ hcfg
  rw [h.operations_eq] at h1
  rw [h1, h2]

theorem select_eq_nil_of_querySelectorAll (root : Node) (base : Path) (sel : Node → Bool)
    (b : Node) (hb : getNode root base = some b) (h : querySelectorAll root base sel = []) :
    select sel b = [] := by
  unfold querySelectorAll at h
  simpa [hb] using h

/-- C10. After `dropdownToggleClick` on an option with text `t` in the dropdown of a
toggle-string argument, where the parser reads the label markup as the text `t`
followed by a space and an empty caret element (as it does when `t` holds no markup
characters) and the button held nothing but its label, `getConfig` returns a
configuration of the same length in which that argument is the pair of option `t` and
the string the argument had before: dropping the last character of the button text
undoes the label formatting. -/
theorem dropdownToggleClick_sets_option (parseHTML : String → List Node) (s : Waiter)
    (cfg : List RecipeItem) (i j : Nat) (operation ing button menu el : Path) (t : String)
    (hcfg : getConfig s.recList = some cfg)
    (hop : (operations s.recList)[i]? = some operation)
    (hing : (entryArguments s.recList operation)[j]? = some ing)
    (hkind : argKind s.recList ing = .toggleString)
    (hbutton : toggleButton s.recList ing = some button)
    (hmenu : (parentNode el).bind parentNode = some menu)
    (hprev : previousSibling menu = some button)
    (ht : textContentAt s.recList el = t)
    (hparse : parseHTML (t ++ " <span class='caret'></span>")
      = [.text (t ++ " "), mkElement "span" ["caret"] [] []])
    (hlabel : querySelectorAll s.recList button liOperation = [] ∧
      querySelectorAll s.recList button (hasClass "arg") = [] ∧
      querySelectorAll s.recList button (hasClass "arg-title") = []) :
    ∃ (s' : Waiter) (cfg' : List RecipeItem) (item' : RecipeItem),
      dropdownToggleClick parseHTML s el = .returned s' ∧
      s'.recList = modifyAt (setChildNodes [.text (t ++ " "), mkElement "span" ["caret"] [] []])
        button s.recList ∧
      textContentAt s'.recList button = t ++ " " ∧
      getConfig s'.recList = some cfg' ∧ cfg'.length = cfg.length ∧
      cfg'[i]? = some item' ∧
      item'.args[j]? = some (.toggle t (valueAt s.recList ing)) := by
  obtain ⟨sib, hsib, hfirst⟩ := toggleButton_eq_some s.recList ing button hbutton
  obtain ⟨c, e, cs0, hbc, hnode, _⟩ := firstElementChild_some s.recList sib button hfirst
  have hrel : Relabel s.recList button (.element e cs0)
      [.text (t ++ " "), mkElement "span" ["caret"] [] []] :=
    { node := hnode
      isElement := rfl
      oldOperation := select_eq_nil_of_querySelectorAll _ _ _ _ hnode hlabel.1
      oldArg := select_eq_nil_of_querySelectorAll _ _ _ _ hnode hlabel.2.1
      oldTitle := select_eq_nil_of_querySelectorAll _ _ _ _ hnode hlabel.2.2
      newOperation := by simp [selectList, select, liOperation, mkElement]
      newArg := by simp [selectList, select, hasClass, mkElement]
      newTitle := by simp [selectList, select, hasClass, mkElement]
      newElement := rfl }
  have htext : textContentAt
      (modifyAt (setChildNodes [.text (t ++ " "), mkElement "span" ["caret"] [] []])
        button s.recList) button = t ++ " " := by
    rw [textContentAt_setChildNodes_self _ _ _ _ hnode rfl]
    simp [textContentList, textContent, mkElement]
  obtain ⟨cfg', hcfg', hlen⟩ := hrel.getConfig_exists cfg hcfg
  have hop' : (operations (modifyAt
      (setChildNodes [.text (t ++ " "), mkElement "span" ["caret"] [] []]) button s.recList))[i]?
      = some operation := by
    rw [hrel.operations_eq]
    exact hop
  obtain ⟨item', hitem', hconf'⟩ := getConfig_getElem? _ cfg' hcfg' i operation hop'
  obtain ⟨_, hargs', _, _⟩ := configItem_some _ operation item' hconf'
  have hopmem := List.getElem?_mem hop
  have hingmem := List.getElem?_mem hing
  rw [hrel.entryArguments_eq operation hopmem] at hargs'
  obtain ⟨v, hv, hval⟩ := traverse_getElem? _ _ _ hargs' j ing hing
  have hnb := hrel.arg_notBelow operation ing hingmem
  have hkind' := argKind_setChildNodes s.recList button
    [.text (t ++ " "), mkElement "span" ["caret"] [] []] ing hnb
  rw [hkind] at hkind'
  rw [ingredientValue_toggleString _ ing hkind'] at hval
  have hbtn' : toggleButton (modifyAt
      (setChildNodes [.text (t ++ " "), mkElement "span" ["caret"] [] []]) button s.recList) ing
      = some button := by
    unfold toggleButton
    rw [hsib]
    simp only [Option.some_bind]
    rw [hbc, firstElementChild_setChildNodes_above, ← hbc]
    exact hfirst
  rw [hbtn'] at hval
  simp only [Option.map_some', Option.some.injEq] at hval
  rw [htext, sliceDropLast_append_space, valueAt_setChildNodes _ _ _ _ hnb] at hval
  refine ⟨ingChange { s with
      recList := modifyAt (setChildNodes [.text (t ++ " "), mkElement "span" ["caret"] [] []])
        button s.recList },
    cfg', item', ?_, rfl, htext, hcfg', hlen, hitem', ?_⟩
  · cases menu with
    | nil => simp [previousSibling] at hprev
    | cons k menu => simp [dropdownToggleClick, hmenu, hprev, ht, hparse, ingChange, dispatchEvent]
  · rw [hv, hval]

/-- C10, witness: the option `Base64` is chosen for the key of `XOR`. -/
theorem dropdownToggleClick_sets_option_witness :
    ∃ (s' : Waiter) (cfg' : List RecipeItem) (item' : RecipeItem),
      dropdownToggleClick exampleParser exampleXORWaiter [0, 1, 1, 0, 1, 1, 0] = .returned s' ∧
      s'.recList = modifyAt
        (setChildNodes [.text ("Base64" ++ " "), mkElement "span" ["caret"] [] []])
        [0, 1, 1, 0, 0] exampleXORWaiter.recList ∧
      textContentAt s'.recList [0, 1, 1, 0, 0] = "Base64" ++ " " ∧
      getConfig s'.recList = some cfg' ∧
      cfg'.length
        = [(⟨"XOR", [.toggle "Hex" "ff", .bool true], none, none⟩ : RecipeItem),
            ⟨"MD5", [], none, none⟩].length ∧
      cfg'[0]? = some item' ∧
      item'.args[0]? = some (.toggle "Base64" (valueAt exampleXORWaiter.recList [0, 1, 1, 1])) :=
  dropdownToggleClick_sets_option exampleParser exampleXORWaiter
    [⟨"XOR", [.toggle "Hex" "ff", .bool true], none, none⟩, ⟨"MD5", [], none, none⟩]
    0 0 [0] [0, 1, 1, 1] [0, 1, 1, 0, 0] [0, 1, 1, 0, 1] [0, 1, 1, 0, 1, 1, 0] "Base64"
    (by decide) (by decide) (by decide) (by decide) (by decide) (by decide) (by decide)
    (by decide) rfl (by decide)

end RecipeWaiter
